import Mathlib

/-!
The program shell-lite: the parser (`parser.c`) and the `cd` builtin (`shell.c`)

A shallow embedding of the command parser of the shell and of its `cd` builtin.

* A C string is modelled by a `String` holding its characters before the terminating NUL.
* A NULL-terminated array `char **tokens` is modelled by the `List String` of its entries
  before the terminating NULL.
* A nullable `char *` field is an `Option String` (`none` is NULL).
* A `command *` is a value of `command`; the constructor `command.null` is the NULL pointer.
* Where the C code dereferences a NULL pointer the model returns `none`.
* Strings are taken whole: the capacity of a fixed-size character buffer is not modelled.
* Allocation is taken to succeed; what `malloc` leaves in a new `simple_command` record is an
  explicit input (`fresh`), since the source does not initialise the record.
-/

namespace ShellLite

/-! ## Data model -/

/-- Modelled from the spec: the declaration of the record `simple_command` (`parser.h`) is
not among the sources. The fields are those `parser.c` and `shell.c` read and write: the
three optional redirection targets `in`, `out`, `err`, the argument array `tokens` and the
flag `builtin`. The field `in` is called `in_` here (`in` is reserved). -/
structure simple_command where
  in_ : Option String
  out : Option String
  err : Option String
  tokens : List String
  builtin : Int
  deriving DecidableEq, Repr

/-- Modelled from the spec: the declaration of the record `command` (`parser.h`) is not among
the sources; its fields, as `parser.c` uses them, are `scmd`, `oper`, `cmd1` and `cmd2`. The
type holds the values a `command *` takes in `construct_command`: NULL, a node whose `scmd`
is set (and `cmd1 = cmd2 = NULL`, a Simple leaf), or a node whose `scmd` is NULL and whose
`oper`, `cmd1`, `cmd2` are set (a Pipeline node, either child possibly NULL). -/
inductive command where
  | null : command
  | simple (scmd : simple_command) : command
  | pipeline (oper : String) (cmd1 cmd2 : command) : command
  deriving DecidableEq, Repr

/-! ## Token predicates (`parser.c`, lines 8-35) -/

/-- The function `is_operator`: the token is the pipe operator. -/
def is_operator (token : String) : Bool :=
  token == "|"

/-- The function `is_builtin`: the token names one of the two builtins. -/
def is_builtin (token : String) : Bool :=
  token == "cd" || token == "exit"

/-- The function `is_relative`: the first character of the path is not `/` (for the empty
path the first character read is the terminating NUL, so the path counts as relative). -/
def is_relative (path : String) : Bool :=
  match path.data with
  | [] => true
  | c :: _ => c != '/'

/-- The function `is_complex_command`: some entry of the array is the pipe operator. -/
def is_complex_command : List String → Bool
  | [] => false
  | token :: rest => if is_operator token then true else is_complex_command rest

/-- The four comparisons of `extract_redirections`: the token is `<`, `>`, `2>` or `&>`. -/
def is_redirection (token : String) : Bool :=
  token == "<" || token == ">" || token == "2>" || token == "&>"

/-! ## `parse_line` (`parser.c`, lines 38-52) -/

/-- The delimiter test of `parse_line`: space, tab or newline. -/
def is_delimiter (c : Char) : Bool :=
  c == ' ' || c == '\t' || c == '\n'

/-- The test of the second inner loop of `parse_line`: neither NUL nor a delimiter. -/
def is_word_char (c : Char) : Bool :=
  c != '\x00' && !is_delimiter c

/-- The test `*line != 0` of the outer loop, on the rest of the buffer: the buffer ends
with a NUL that the list leaves implicit. -/
def at_nul : List Char → Bool
  | [] => true
  | c :: _ => c == '\x00'

/-- The outer loop of `parse_line` on the characters still to read. One round overwrites the
leading delimiters with NUL, stores the current position as the next token and moves past the
characters up to the next delimiter; the stored token therefore reads as those characters.
`fuel` bounds the number of rounds. -/
def parse_line_loop : Nat → List Char → List String
  | 0, _ => []
  | fuel + 1, line =>
    if at_nul line then []
    else
      let line1 := line.dropWhile is_delimiter
      let token := String.mk (line1.takeWhile is_word_char)
      let line2 := line1.dropWhile is_word_char
      token :: parse_line_loop fuel line2

/-- The function `parse_line`: the tokens stored for a line. Every round on a line not at
its end consumes at least one character, so `line.length` rounds are enough
(`parse_line_loop_fuel`). -/
def parse_line (line : String) : List String :=
  parse_line_loop line.data.length line.data

/-! ## `extract_redirections` (`parser.c`, lines 54-118) -/

/-- The first loop of `extract_redirections`, on the entries from index `i` on. The four
`if`s of the source compare `tokens[i]` with four different strings, so at most one of them
fires. The result is `none` where the source returns `-1` (the operator is the last entry,
`tokens[i+1]` is NULL), together with the record as written so far; otherwise the final
`skipcnt` and record. -/
def scan_redirections : List String → Nat → simple_command → Option Nat × simple_command
  | [], skipcnt, cmd => (some skipcnt, cmd)
  | [token], skipcnt, cmd =>
    if is_redirection token then (none, cmd) else (some skipcnt, cmd)
  | token :: target :: rest, skipcnt, cmd =>
    if token == ">" then
      scan_redirections rest (skipcnt + 2) { cmd with out := some target }
    else if token == "<" then
      scan_redirections rest (skipcnt + 2) { cmd with in_ := some target }
    else if token == "2>" then
      scan_redirections rest (skipcnt + 2) { cmd with err := some target }
    else if token == "&>" then
      scan_redirections rest (skipcnt + 2) { cmd with out := some target, err := some target }
    else
      scan_redirections (target :: rest) skipcnt cmd

/-- The second loop of `extract_redirections`: copy the entries, stepping over each operator
and the entry after it. The loop runs only after the first loop has succeeded, so an operator
is never the last entry here; on such an array (where the source would step past the
terminator) the copy just ends. -/
def copy_arguments : List String → List String
  | [] => []
  | [token] => if is_redirection token then [] else [token]
  | token :: target :: rest =>
    if is_redirection token then copy_arguments rest
    else token :: copy_arguments (target :: rest)

/-- The call `extract_redirections(tokens, cmd)`: the returned status and the record
afterwards. -/
def extract_redirections (tokens : List String) (cmd : simple_command) :
    Int × simple_command :=
  match scan_redirections tokens 0 cmd with
  | (none, cmd1) => (-1, cmd1)
  | (some skipcnt, cmd1) =>
    if skipcnt = 0 then (0, { cmd1 with tokens := tokens })
    else (0, { cmd1 with tokens := copy_arguments tokens })

/-! ## `construct_command` (`parser.c`, lines 121-167) -/

/-- The scan of the complex branch of `construct_command`: the entries before the first
operator (`t1`, cut by writing NULL over the operator), the operator as copied into `oper`,
and the entries after it (`t2`). -/
def split_at_operator : List String → List String × String × List String
  | [] => ([], "", [])
  | token :: rest =>
    if is_operator token then ([], token, rest)
    else
      let r := split_at_operator rest
      (token :: r.1, r.2.1, r.2.2)

/-- The function `construct_command` with a bound on the recursion depth. `fresh k` is the
content that `malloc` leaves in the `simple_command` record allocated for the leaf whose
array starts at entry `k` of the line (the source initialises none of its fields); `off` is
the entry of the line at which `tokens` starts. The result is `none` when the source
dereferences NULL (`is_builtin(tokens[0])` on an empty array) and `some command.null` when
it returns NULL; the bound itself is never reached from `construct_command`. -/
def construct_command_fuel (fresh : Nat → simple_command) :
    Nat → Nat → List String → Option command
  | 0, _, _ => none
  | fuel + 1, off, tokens =>
    if !is_complex_command tokens then
      match tokens with
      | [] => none
      | token :: _ =>
        if is_builtin token then
          some (command.simple { fresh off with builtin := 1, tokens := tokens })
        else
          let r := extract_redirections tokens { fresh off with builtin := 0 }
          if r.1 = -1 then some command.null
          else some (command.simple r.2)
    else
      let s := split_at_operator tokens
      match construct_command_fuel fresh fuel off s.1 with
      | none => none
      | some cmd1 =>
        match construct_command_fuel fresh fuel (off + s.1.length + 1) s.2.2 with
        | none => none
        | some cmd2 => some (command.pipeline s.2.1 cmd1 cmd2)

/-- The call `construct_command(tokens)`: each recursive call is on a strictly shorter
array, so a depth of `tokens.length + 1` is never exhausted (`construct_command_simple`,
`construct_command_complex`). -/
def construct_command (fresh : Nat → simple_command) (off : Nat) (tokens : List String) :
    Option command :=
  construct_command_fuel fresh (tokens.length + 1) off tokens

/-- The `simple_command` records of a tree, left to right. -/
def leaves : command → List simple_command
  | command.null => []
  | command.simple scmd => [scmd]
  | command.pipeline _ cmd1 cmd2 => leaves cmd1 ++ leaves cmd2

/-- A record with all pointer fields NULL. -/
def zeroed : simple_command :=
  { in_ := none, out := none, err := none, tokens := [], builtin := 0 }

/-! ## `execute_cd` (`shell.c`, lines 82-116) -/

/-- The status `EXIT_FAILURE`. -/
def EXIT_FAILURE : Int := 1

/-- The call `chdir(path)` on the working directory kept as explicit state; the change is
taken to succeed, so the working directory becomes the path given. -/
def chdir (path : String) (_cwd : String) : String :=
  path

/-- The call `execute_cd(words)` on the working directory `cwd`: the returned status and the
working directory afterwards. The three guards come before every read of `words[0]` and
`words[1]`, so no NULL is dereferenced and the result is always `some`. The copy of
`words[1]` into `path` is never read; in the relative case `getcwd` gives `cwd`, the two
`strcat` append `/` and `words[1]`, and the string so built is passed to `chdir`. The last
`else` of the source cannot be reached (`is_relative` returns 0 or 1). -/
def execute_cd (cwd : String) (words : List String) : Option (Int × String) :=
  match words with
  | [] => some (EXIT_FAILURE, cwd)
  | [_] => some (EXIT_FAILURE, cwd)
  | word0 :: word1 :: _ =>
    if word0 != "cd" then some (EXIT_FAILURE, cwd)
    else if is_relative word1 then some (0, chdir (cwd ++ "/" ++ word1) cwd)
    else some (0, chdir word1 cwd)

/-! ## Processes, descriptors and system calls (`shell.c`) -/

/-- What an open descriptor refers to: something the process inherited on a descriptor, a
file opened by its path, or an end of the pipe created by the call of
`execute_complex_command` at a given depth. -/
inductive open_file where
  | inherited (fd : Int) : open_file
  | file (path : String) : open_file
  | pipe_read (depth : Nat) : open_file
  | pipe_write (depth : Nat) : open_file
  deriving DecidableEq, Repr

/-- The system and library calls a process makes, in the order of the source. -/
inductive syscall where
  | open_ (path : String) : syscall
  | fcntl (fd : Int) : syscall
  | dup2 (oldfd newfd : Int) : syscall
  | close (fd : Int) : syscall
  | execvp (argv : List String) : syscall
  | perror (message : String) : syscall
  | pipe : syscall
  | fork : syscall
  | waitpid (pid : Int) : syscall
  deriving DecidableEq, Repr

/-- How the run of a function ends in the process that runs it: it returns a value, the
process exits, the process image is replaced by the program of `execvp`, or the behaviour is
undefined (a NULL pointer is dereferenced). -/
inductive outcome where
  | returned (value : Int) : outcome
  | exited (code : Int) : outcome
  | replaced (argv : List String) : outcome
  | fault : outcome
  deriving DecidableEq, Repr

/-- The state of one process: its descriptor table and the calls it has made so far. -/
structure process where
  fds : Int → Option open_file
  calls : List syscall

/-- The answers of the system to the calls of one run of `execute_nonbuiltin` or of
`execute_complex_command`: the descriptor `open` returns for a path (negative when it
fails), whether `execvp` starts the program, whether `pipe` succeeds and the two descriptors
it yields, the values the two `fork` return, the statuses the two `waitpid` store, and the
content of the `oper` field of a leaf node, which `construct_command` never writes. -/
structure kernel where
  open_fd : String → Int
  exec_ok : Bool
  pipe_ok : Bool
  pfd0 : Int
  pfd1 : Int
  pid1 : Int
  pid2 : Int
  status1 : Int
  status2 : Int
  leaf_oper : String

/-- The descriptor `fileno(stdin)`. -/
def STDIN : Int := 0

/-- The descriptor `fileno(stdout)`. -/
def STDOUT : Int := 1

/-- The descriptor `fileno(stderr)`. -/
def STDERR : Int := 2

/-- The call `open(path, ..)` that returns `fd`: on success the descriptor refers to the
file. -/
def sys_open (path : String) (fd : Int) (p : process) : process :=
  { fds :=
      if fd < 0 then p.fds
      else fun k => if k = fd then some (open_file.file path) else p.fds k,
    calls := p.calls ++ [syscall.open_ path] }

/-- The call `fcntl(fd, F_SETFD, 1)`: the close-on-exec flag of `fd` alone is set, no
descriptor changes what it refers to. -/
def sys_fcntl (fd : Int) (p : process) : process :=
  { p with calls := p.calls ++ [syscall.fcntl fd] }

/-- The call `dup2(oldfd, newfd)`: `newfd` refers to what `oldfd` refers to; nothing changes
when `oldfd` is not open. -/
def sys_dup2 (oldfd newfd : Int) (p : process) : process :=
  { fds := match p.fds oldfd with
      | none => p.fds
      | some f => fun k => if k = newfd then some f else p.fds k,
    calls := p.calls ++ [syscall.dup2 oldfd newfd] }

/-- The call `close(fd)`. -/
def sys_close (fd : Int) (p : process) : process :=
  { fds := fun k => if k = fd then none else p.fds k,
    calls := p.calls ++ [syscall.close fd] }

/-- The call `pipe(pfd)` when it succeeds: the two descriptors refer to the two ends. -/
def sys_pipe (depth : Nat) (pfd0 pfd1 : Int) (p : process) : process :=
  { fds := fun k =>
      if k = pfd1 then some (open_file.pipe_write depth)
      else if k = pfd0 then some (open_file.pipe_read depth)
      else p.fds k,
    calls := p.calls ++ [syscall.pipe] }

/-- A call that changes no descriptor: it is only recorded. -/
def sys_call (c : syscall) (p : process) : process :=
  { p with calls := p.calls ++ [c] }

/-! ## `execute_command` and `execute_nonbuiltin` (`shell.c`, lines 119-165) -/

/-- The function `execute_command`: `execvp(tokens[0], tokens)` replaces the process image;
when it fails the process reports it and exits with `EXIT_FAILURE`. With an empty array
`tokens[0]` is NULL and is passed to `execvp` and `perror`. -/
def execute_command (k : kernel) (tokens : List String) (p : process) : process × outcome :=
  match tokens with
  | [] => (sys_call (syscall.execvp []) p, outcome.fault)
  | name :: _ =>
    if k.exec_ok then (sys_call (syscall.execvp tokens) p, outcome.replaced tokens)
    else
      (sys_call (syscall.perror name) (sys_call (syscall.execvp tokens) p),
        outcome.exited EXIT_FAILURE)

/-- The chain of `if` and `else if` of `execute_nonbuiltin`: the first test that holds
decides the one redirection made. The tests are, in order, `out` and `err` both set, `out`
set, `in` set, `err` set. -/
def apply_redirections (k : kernel) (s : simple_command) (p : process) : process :=
  match s.out, s.err, s.in_ with
  | some out, some _, _ =>
    let filedes := k.open_fd out
    sys_close filedes (sys_dup2 STDOUT STDERR (sys_dup2 filedes STDOUT
      (sys_fcntl filedes (sys_open out filedes p))))
  | some out, none, _ =>
    let filedes := k.open_fd out
    sys_close filedes (sys_dup2 filedes STDOUT (sys_fcntl filedes (sys_open out filedes p)))
  | none, _, some inp =>
    let filedes := k.open_fd inp
    sys_close filedes (sys_dup2 filedes STDIN (sys_fcntl filedes (sys_open inp filedes p)))
  | none, some err, none =>
    let filedes := k.open_fd err
    sys_close filedes (sys_dup2 filedes STDERR (sys_fcntl filedes (sys_open err filedes p)))
  | none, none, none => p

/-- The function `execute_nonbuiltin`: the redirection, then `execute_command`, which does
not return (the statements after it are never reached). -/
def execute_nonbuiltin (k : kernel) (s : simple_command) (p : process) : process × outcome :=
  execute_command k s.tokens (apply_redirections k s p)

/-! ## `execute_complex_command` (`shell.c`, lines 202-256) -/

/-- The body of `if (!strcmp(c->oper, "|"))` and the final `return 0`, in the process that
runs the function. `run1` and `run2` are the recursive calls on `c->cmd1` and `c->cmd2`, made
in the first and in the second child. A `fork` that returns 0 is followed in this model by
the code of the child, a positive value by the code of the parent. In the parent the two
`waitpid` store `k.status1` and then `k.status2` in the local `status`, which is never read:
the function ends with `return 0`. -/
def pipe_branch (k : kernel) (depth : Nat) (oper : String)
    (run1 run2 : process → process × outcome) (p : process) : process × outcome :=
  if oper != "|" then (p, outcome.returned 0)
  else if !k.pipe_ok then
    (sys_call (syscall.perror "pipe") (sys_call syscall.pipe p), outcome.exited EXIT_FAILURE)
  else
    let p1 := sys_call syscall.fork (sys_pipe depth k.pfd0 k.pfd1 p)
    if k.pid1 < 0 then (sys_call (syscall.perror "fork") p1, outcome.exited EXIT_FAILURE)
    else if k.pid1 = 0 then
      let r := run1 (sys_dup2 k.pfd1 STDOUT (sys_close STDOUT (sys_close k.pfd0 p1)))
      match r.2 with
      | outcome.returned _ => (r.1, outcome.exited 0)
      | o => (r.1, o)
    else
      let p2 := sys_call syscall.fork p1
      if k.pid2 < 0 then (sys_call (syscall.perror "fork") p2, outcome.exited EXIT_FAILURE)
      else if k.pid2 = 0 then
        let r := run2 (sys_dup2 k.pfd0 STDIN (sys_close STDIN (sys_close k.pfd1 p2)))
        match r.2 with
        | outcome.returned _ => (r.1, outcome.exited 0)
        | o => (r.1, o)
      else
        (sys_call (syscall.waitpid k.pid2) (sys_call (syscall.waitpid k.pid1)
          (sys_close k.pfd1 (sys_close k.pfd0 p2))), outcome.returned 0)

/-- The function `execute_complex_command` in the process that runs it; `sys depth` holds
the answers of the system to the run at recursion depth `depth`. On a NULL node the read of
`c->scmd` is undefined. On a leaf that is not a builtin `execute_nonbuiltin` does not return;
on a builtin leaf the test of `oper` reads a field that was never written, and its two
children are NULL. -/
def execute_complex_command (sys : Nat → kernel) :
    Nat → command → process → process × outcome
  | _, command.null => fun p => (p, outcome.fault)
  | depth, command.simple scmd =>
    if scmd.builtin = 0 then execute_nonbuiltin (sys depth) scmd
    else
      pipe_branch (sys depth) depth (sys depth).leaf_oper
        (fun p => (p, outcome.fault)) (fun p => (p, outcome.fault))
  | depth, command.pipeline oper cmd1 cmd2 =>
    pipe_branch (sys depth) depth oper
      (execute_complex_command sys (depth + 1) cmd1)
      (execute_complex_command sys (depth + 1) cmd2)

/-- The descriptor table of a process that inherited the three standard streams. -/
def standard_fds : Int → Option open_file :=
  fun k => if 0 ≤ k ∧ k ≤ 2 then some (open_file.inherited k) else none

/-- A process with the three standard streams and no call made yet. -/
def initial_process : process :=
  { fds := standard_fds, calls := [] }

/-- Answers for a run in which every call succeeds in the parent: `open` returns 3, the
pipe is on 3 and 4, the children are 101 and 102 and end with the two statuses given. -/
def parent_kernel (status1 status2 : Int) : kernel :=
  { open_fd := fun _ => 3, exec_ok := true, pipe_ok := true, pfd0 := 3, pfd1 := 4,
    pid1 := 101, pid2 := 102, status1 := status1, status2 := status2, leaf_oper := "" }

/-! ## Definitions used to state and prove the properties -/

/-- The leaf branch of `construct_command`, on an array without a pipe operator. -/
def construct_leaf (fresh : Nat → simple_command) (off : Nat) (tokens : List String) :
    Option command :=
  match tokens with
  | [] => none
  | token :: _ =>
    if is_builtin token then
      some (command.simple { fresh off with builtin := 1, tokens := tokens })
    else
      let r := extract_redirections tokens { fresh off with builtin := 0 }
      if r.1 = -1 then some command.null
      else some (command.simple r.2)

/-- The node built by the complex branch from the results of the two recursive calls. -/
def join_commands (oper : String) (r1 r2 : Option command) : Option command :=
  match r1 with
  | none => none
  | some cmd1 =>
    match r2 with
    | none => none
    | some cmd2 => some (command.pipeline oper cmd1 cmd2)

/-- The record after one operator/target pair of the first loop of `extract_redirections`:
the assignment made by the `if` that fires for `token`. -/
def set_target (token target : String) (cmd : simple_command) : simple_command :=
  if token == ">" then { cmd with out := some target }
  else if token == "<" then { cmd with in_ := some target }
  else if token == "2>" then { cmd with err := some target }
  else if token == "&>" then { cmd with out := some target, err := some target }
  else cmd

/-- The three standard streams a redirection can name. -/
inductive stream where
  | input : stream
  | output : stream
  | error : stream
  deriving DecidableEq, Repr

/-- The operator tokens that set the target of a stream: `<` for input, `>` and `&>` for
output, `2>` and `&>` for error. -/
def stream_operators : stream → List String
  | stream.input => ["<"]
  | stream.output => [">", "&>"]
  | stream.error => ["2>", "&>"]

/-- The field of the record that holds the target of a stream. -/
def target_of : stream → simple_command → Option String
  | stream.input, cmd => cmd.in_
  | stream.output, cmd => cmd.out
  | stream.error, cmd => cmd.err

/-- The indices at which a left-to-right reading of the array meets a redirection operator
in operator place: a redirection operator token that is not the entry right after such an
operator (that entry is its target, whatever it reads). -/
def operator_positions : List String → List Nat
  | [] => []
  | [token] => if is_redirection token then [0] else []
  | token :: target :: rest =>
    if is_redirection token then 0 :: (operator_positions rest).map (fun i => i + 2)
    else (operator_positions (target :: rest)).map (fun i => i + 1)

/-- Entry `i` of the array is read as an operator of the stream. -/
@[reducible] def operator_at (s : stream) (tokens : List String) (i : Nat) : Prop :=
  i ∈ operator_positions tokens ∧ ∃ t ∈ stream_operators s, tokens[i]? = some t

/-- Entry `i` is the last entry of the array read as an operator of the stream. -/
@[reducible] def last_operator_at (s : stream) (tokens : List String) (i : Nat) : Prop :=
  operator_at s tokens i ∧
    ∀ j ∈ operator_positions tokens, (∃ t ∈ stream_operators s, tokens[j]? = some t) → j ≤ i

/-- The array with every redirection operator token and the one token that follows it
deleted, the other tokens kept in order; `after_operator` tells whether the token before
the first one is a redirection operator token. -/
def delete_redirections (after_operator : Bool) : List String → List String
  | [] => []
  | token :: rest =>
    if is_redirection token || after_operator then
      delete_redirections (is_redirection token) rest
    else token :: delete_redirections false rest

/-- No two neighbouring entries `a`, `b` of the array satisfy `bad a b`. -/
def adjacent_free (bad : String → String → Bool) : List String → Bool
  | [] => true
  | [_] => true
  | a :: b :: rest => !bad a b && adjacent_free bad (b :: rest)

/-- No redirection operator token is immediately followed by a redirection operator
token. -/
@[reducible] def no_adjacent_redirections (tokens : List String) : Prop :=
  adjacent_free (fun a b => is_redirection a && is_redirection b) tokens = true

/-- Every pipe-separated segment of the array is non-empty: the array is not empty, does not
start or end with `|`, and has no two adjacent `|`. -/
@[reducible] def segments_nonempty (tokens : List String) : Prop :=
  tokens ≠ [] ∧ tokens.head? ≠ some "|" ∧ tokens.getLast? ≠ some "|" ∧
    adjacent_free (fun a b => is_operator a && is_operator b) tokens = true

/-- The array with every entry read as a redirection operator and the one entry after it
deleted, the other entries kept in order. -/
def without_operator_pairs (tokens : List String) : List String :=
  (List.range tokens.length).filterMap (fun i =>
    if i ∈ operator_positions tokens ∨ ∃ j ∈ operator_positions tokens, i = j + 1 then none
    else tokens[i]?)

/-- In a list of calls the descriptor `fd` is closed, and no `waitpid` is made before that
`close`. -/
def closed_before_wait (fd : Int) : List syscall → Bool
  | [] => false
  | syscall.close fd2 :: rest => if fd2 = fd then true else closed_before_wait fd rest
  | syscall.waitpid _ :: _ => false
  | _ :: rest => closed_before_wait fd rest

/-- The maximal runs of non-delimiter characters of a line, left to right: the pieces
between delimiters that are not empty. -/
def words (line : List Char) : List (List Char) :=
  (line.splitOnP is_delimiter).filter (fun w => !w.isEmpty)

/-- The line is not empty and its last character is a delimiter. -/
def ends_with_delimiter (line : List Char) : Bool :=
  match line.getLast? with
  | some c => is_delimiter c
  | none => false

theorem is_operator_iff (token : String) : is_operator token = true ↔ token = "|" := by
  simp [is_operator]

theorem is_complex_command_iff (tokens : List String) :
    is_complex_command tokens = true ↔ "|" ∈ tokens := by
  induction tokens with
  | nil => simp [is_complex_command]
  | cons t rest ih =>
    by_cases h : is_operator t = true
    · have : t = "|" := (is_operator_iff t).1 h
      simp [is_complex_command, h, this.symm]
    · have hne : ¬ t = "|" := fun e => h ((is_operator_iff t).2 e)
      have hne2 : ¬ "|" = t := fun e => hne e.symm
      simp [is_complex_command, h, ih, hne2]

/-- The scan of the complex branch cuts the array at its first operator. -/
theorem split_at_operator_spec (tokens : List String)
    (h : is_complex_command tokens = true) :
    tokens = (split_at_operator tokens).1 ++ "|" :: (split_at_operator tokens).2.2 ∧
      (split_at_operator tokens).2.1 = "|" ∧
      is_complex_command (split_at_operator tokens).1 = false := by
  induction tokens with
  | nil => simp [is_complex_command] at h
  | cons t rest ih =>
    by_cases ht : is_operator t = true
    · have : t = "|" := (is_operator_iff t).1 ht
      simp [split_at_operator, ht, this.symm, is_complex_command]
    · have hrest : is_complex_command rest = true := by
        simpa [is_complex_command, ht] using h
      obtain ⟨h1, h2, h3⟩ := ih hrest
      refine ⟨?_, ?_, ?_⟩
      · simp only [split_at_operator, ht, Bool.false_eq_true, if_false, List.cons_append]
        exact congrArg (List.cons t) h1
      · simpa [split_at_operator, ht] using h2
      · simpa [split_at_operator, ht, is_complex_command] using h3

theorem split_at_operator_length (tokens : List String)
    (h : is_complex_command tokens = true) :
    (split_at_operator tokens).1.length + 1 + (split_at_operator tokens).2.2.length =
      tokens.length := by
  have h1 := congrArg List.length (split_at_operator_spec tokens h).1
  simp at h1
  omega

/-! ## The recursion bound of `construct_command` is never reached -/

theorem construct_command_fuel_succ (fresh : Nat → simple_command) (fuel off : Nat)
    (tokens : List String) :
    construct_command_fuel fresh (fuel + 1) off tokens =
      if is_complex_command tokens = false then construct_leaf fresh off tokens
      else join_commands (split_at_operator tokens).2.1
        (construct_command_fuel fresh fuel off (split_at_operator tokens).1)
        (construct_command_fuel fresh fuel
          (off + (split_at_operator tokens).1.length + 1) (split_at_operator tokens).2.2) := by
  by_cases h : is_complex_command tokens = true
  · simp only [construct_command_fuel, h, join_commands]
    simp
  · have h2 : is_complex_command tokens = false := by simpa using h
    simp only [construct_command_fuel, h2, construct_leaf]
    cases tokens <;> simp

theorem construct_command_fuel_irrelevant (fresh : Nat → simple_command) :
    ∀ (fuel1 fuel2 off : Nat) (tokens : List String),
      tokens.length < fuel1 → tokens.length < fuel2 →
      construct_command_fuel fresh fuel1 off tokens =
        construct_command_fuel fresh fuel2 off tokens := by
  intro fuel1
  induction fuel1 with
  | zero => intro fuel2 off tokens h; omega
  | succ n ih =>
    intro fuel2 off tokens h1 h2
    cases fuel2 with
    | zero => omega
    | succ m =>
      rw [construct_command_fuel_succ, construct_command_fuel_succ]
      by_cases hc : is_complex_command tokens = true
      · have hl := split_at_operator_length tokens hc
        rw [ih m off _ (by omega) (by omega), ih m _ _ (by omega) (by omega)]
      · have hc2 : is_complex_command tokens = false := by simpa using hc
        simp [hc2]

/-- On an array without a pipe operator `construct_command` takes the leaf branch. -/
theorem construct_command_simple (fresh : Nat → simple_command) (off : Nat)
    (tokens : List String) (h : is_complex_command tokens = false) :
    construct_command fresh off tokens = construct_leaf fresh off tokens := by
  unfold construct_command
  rw [construct_command_fuel_succ]
  simp [h]

/-- On an array with a pipe operator `construct_command` joins the results of its two
recursive calls: the recursion bound plays no part. -/
theorem construct_command_complex (fresh : Nat → simple_command) (off : Nat)
    (tokens : List String) (h : is_complex_command tokens = true) :
    construct_command fresh off tokens =
      join_commands (split_at_operator tokens).2.1
        (construct_command fresh off (split_at_operator tokens).1)
        (construct_command fresh
          (off + (split_at_operator tokens).1.length + 1) (split_at_operator tokens).2.2) := by
  have hl := split_at_operator_length tokens h
  unfold construct_command
  rw [construct_command_fuel_succ]
  simp only [h, Bool.true_eq_false, if_false]
  rw [construct_command_fuel_irrelevant fresh tokens.length
        ((split_at_operator tokens).1.length + 1) off _ (by omega) (by omega),
      construct_command_fuel_irrelevant fresh tokens.length
        ((split_at_operator tokens).2.2.length + 1) _ _ (by omega) (by omega)]

/-! ## Lemmas on the two loops of `extract_redirections` -/

/-- Induction along the reading of an array: an operator is stepped over together with the
entry after it, any other entry alone. -/
theorem reading_induction {P : List String → Prop} (nil : P [])
    (single : ∀ t, P [t])
    (pair : ∀ t u rest, is_redirection t = true → P rest → P (t :: u :: rest))
    (word : ∀ t u rest, is_redirection t = false → P (u :: rest) → P (t :: u :: rest)) :
    ∀ tokens, P tokens := by
  have key : ∀ n (tokens : List String), tokens.length ≤ n → P tokens := by
    intro n
    induction n with
    | zero =>
      intro tokens h
      cases tokens with
      | nil => exact nil
      | cons t rest => simp at h
    | succ n ih =>
      intro tokens h
      match tokens, h with
      | [], _ => exact nil
      | [t], _ => exact single t
      | t :: u :: rest, h =>
        simp only [List.length_cons] at h
        by_cases ht : is_redirection t = true
        · exact pair t u rest ht (ih rest (by omega))
        · exact word t u rest (by simpa using ht) (ih (u :: rest) (by simp; omega))
  exact fun tokens => key tokens.length tokens (Nat.le_refl _)

theorem is_redirection_iff (t : String) :
    is_redirection t = true ↔ t = "<" ∨ t = ">" ∨ t = "2>" ∨ t = "&>" := by
  simp [is_redirection, or_assoc]

theorem scan_redirections_pair (t u : String) (rest : List String) (k : Nat)
    (cmd : simple_command) (h : is_redirection t = true) :
    scan_redirections (t :: u :: rest) k cmd =
      scan_redirections rest (k + 2) (set_target t u cmd) := by
  rcases (is_redirection_iff t).1 h with h | h | h | h <;> subst h <;>
    simp [scan_redirections, set_target]

theorem scan_redirections_word (t u : String) (rest : List String) (k : Nat)
    (cmd : simple_command) (h : is_redirection t = false) :
    scan_redirections (t :: u :: rest) k cmd = scan_redirections (u :: rest) k cmd := by
  have h' : ¬ (t = "<" ∨ t = ">" ∨ t = "2>" ∨ t = "&>") := by
    rw [← is_redirection_iff]; simp [h]
  simp only [not_or] at h'
  simp [scan_redirections, h'.1, h'.2.1, h'.2.2.1, h'.2.2.2]

theorem target_of_set_target (s : stream) (t u : String) (cmd : simple_command)
    (h : is_redirection t = true) :
    target_of s (set_target t u cmd) =
      if t ∈ stream_operators s then some u else target_of s cmd := by
  rcases (is_redirection_iff t).1 h with h | h | h | h <;> subst h <;> cases s <;>
    simp [set_target, target_of, stream_operators]

theorem copy_arguments_pair (t u : String) (rest : List String)
    (h : is_redirection t = true) :
    copy_arguments (t :: u :: rest) = copy_arguments rest := by
  simp [copy_arguments, h]

theorem copy_arguments_word (t u : String) (rest : List String)
    (h : is_redirection t = false) :
    copy_arguments (t :: u :: rest) = t :: copy_arguments (u :: rest) := by
  simp [copy_arguments, h]

theorem operator_positions_pair (t u : String) (rest : List String)
    (h : is_redirection t = true) :
    operator_positions (t :: u :: rest) =
      0 :: (operator_positions rest).map (fun i => i + 2) := by
  simp [operator_positions, h]

theorem operator_positions_word (t u : String) (rest : List String)
    (h : is_redirection t = false) :
    operator_positions (t :: u :: rest) =
      (operator_positions (u :: rest)).map (fun i => i + 1) := by
  simp [operator_positions, h]

/-- Every index read in operator place holds a redirection operator token. -/
theorem operator_positions_spec (tokens : List String) :
    ∀ i ∈ operator_positions tokens, ∃ t, tokens[i]? = some t ∧ is_redirection t = true := by
  induction tokens using reading_induction with
  | nil => simp [operator_positions]
  | single t =>
    by_cases h : is_redirection t = true <;> simp [operator_positions, h]
  | pair t u rest h ih =>
    intro i hi
    rw [operator_positions_pair t u rest h] at hi
    simp only [List.mem_cons, List.mem_map] at hi
    rcases hi with rfl | ⟨j, hj, rfl⟩
    · exact ⟨t, by simp, h⟩
    · obtain ⟨v, hv, hv2⟩ := ih j hj
      exact ⟨v, by simpa using hv, hv2⟩
  | word t u rest h ih =>
    intro i hi
    rw [operator_positions_word t u rest h] at hi
    simp only [List.mem_map] at hi
    obtain ⟨j, hj, rfl⟩ := hi
    obtain ⟨v, hv, hv2⟩ := ih j hj
    exact ⟨v, by simpa using hv, hv2⟩

/-- The first loop never lowers `skipcnt`. -/
theorem scan_redirections_skipcnt (tokens : List String) :
    ∀ (k : Nat) (cmd : simple_command) (k1 : Nat),
      (scan_redirections tokens k cmd).1 = some k1 → k ≤ k1 := by
  induction tokens using reading_induction with
  | nil => intro k cmd k1 h; simp [scan_redirections] at h; omega
  | single t =>
    intro k cmd k1 h
    by_cases ht : is_redirection t = true <;> simp [scan_redirections, ht] at h
    omega
  | pair t u rest ht ih =>
    intro k cmd k1 h
    rw [scan_redirections_pair t u rest k cmd ht] at h
    have := ih _ _ _ h
    omega
  | word t u rest ht ih =>
    intro k cmd k1 h
    rw [scan_redirections_word t u rest k cmd ht] at h
    exact ih _ _ _ h

/-- When the first loop leaves `skipcnt` as it was, the second loop would copy the whole
array: the two ways `extract_redirections` stores the arguments agree. -/
theorem copy_arguments_of_skipcnt (tokens : List String) :
    ∀ (k : Nat) (cmd : simple_command),
      (scan_redirections tokens k cmd).1 = some k → copy_arguments tokens = tokens := by
  induction tokens using reading_induction with
  | nil => intro k cmd _; rfl
  | single t =>
    intro k cmd h
    by_cases ht : is_redirection t = true <;> simp [scan_redirections, ht] at h
    simp [copy_arguments, ht]
  | pair t u rest ht ih =>
    intro k cmd h
    rw [scan_redirections_pair t u rest k cmd ht] at h
    have := scan_redirections_skipcnt rest _ _ _ h
    omega
  | word t u rest ht ih =>
    intro k cmd h
    rw [scan_redirections_word t u rest k cmd ht] at h
    rw [copy_arguments_word t u rest ht, ih k cmd h]

/-- The arguments stored by a successful `extract_redirections` are those the second loop
copies, also when the first loop found nothing to skip. -/
theorem extract_redirections_tokens (tokens : List String) (cmd cmd1 : simple_command)
    (h : extract_redirections tokens cmd = (0, cmd1)) :
    cmd1.tokens = copy_arguments tokens := by
  unfold extract_redirections at h
  rcases hs : scan_redirections tokens 0 cmd with ⟨r, c⟩
  rw [hs] at h
  cases r with
  | none => simp at h
  | some k =>
    by_cases hk : k = 0
    · subst hk
      have h1 : (scan_redirections tokens 0 cmd).1 = some 0 := by rw [hs]
      have h2 := copy_arguments_of_skipcnt tokens 0 cmd h1
      simp at h
      rw [← h, h2]
    · simp [hk] at h
      rw [← h]

/-- The first loop returns `-1` exactly when the last entry is read in operator place. -/
theorem scan_redirections_fails_iff (tokens : List String) :
    ∀ (k : Nat) (cmd : simple_command),
      (scan_redirections tokens k cmd).1 = none ↔
        tokens.length - 1 ∈ operator_positions tokens := by
  induction tokens using reading_induction with
  | nil => intro k cmd; simp [scan_redirections, operator_positions]
  | single t =>
    intro k cmd
    by_cases ht : is_redirection t = true <;> simp [scan_redirections, operator_positions, ht]
  | pair t u rest ht ih =>
    intro k cmd
    rw [scan_redirections_pair t u rest k cmd ht, operator_positions_pair t u rest ht, ih]
    simp only [List.length_cons, List.mem_cons, List.mem_map]
    constructor
    · intro h
      obtain ⟨v, hv, _⟩ := operator_positions_spec rest _ h
      have hlt : rest.length - 1 < rest.length := (List.getElem?_eq_some_iff.1 hv).1
      exact Or.inr ⟨rest.length - 1, h, by omega⟩
    · rintro (h | ⟨j, hj, hje⟩)
      · omega
      · have : j = rest.length - 1 := by omega
        rw [← this]; exact hj
  | word t u rest ht ih =>
    intro k cmd
    rw [scan_redirections_word t u rest k cmd ht, operator_positions_word t u rest ht, ih]
    simp only [List.length_cons, List.mem_map]
    constructor
    · intro h
      exact ⟨_, h, by omega⟩
    · rintro ⟨j, hj, hje⟩
      have : j = rest.length + 1 - 1 := by omega
      rw [← this]; exact hj

/-- A stream no operator of which is read keeps the target it had. -/
theorem scan_redirections_target_kept (s : stream) (tokens : List String) :
    ∀ (k : Nat) (cmd : simple_command),
      (∀ j ∈ operator_positions tokens, ¬ ∃ t ∈ stream_operators s, tokens[j]? = some t) →
      target_of s (scan_redirections tokens k cmd).2 = target_of s cmd := by
  induction tokens using reading_induction with
  | nil => intro k cmd _; simp [scan_redirections]
  | single t =>
    intro k cmd _
    by_cases ht : is_redirection t = true <;> simp [scan_redirections, ht]
  | pair t u rest ht ih =>
    intro k cmd hno
    rw [scan_redirections_pair t u rest k cmd ht]
    rw [operator_positions_pair t u rest ht] at hno
    have h0 : t ∉ stream_operators s := by
      intro hmem
      exact hno 0 (by simp) ⟨t, hmem, by simp⟩
    rw [ih, target_of_set_target s t u cmd ht, if_neg h0]
    intro j hj hex
    apply hno (j + 2) (by simp [hj])
    obtain ⟨v, hv, hv2⟩ := hex
    exact ⟨v, hv, by simpa using hv2⟩
  | word t u rest ht ih =>
    intro k cmd hno
    rw [scan_redirections_word t u rest k cmd ht]
    rw [operator_positions_word t u rest ht] at hno
    apply ih
    intro j hj hex
    apply hno (j + 1) (by simp [hj])
    obtain ⟨v, hv, hv2⟩ := hex
    exact ⟨v, hv, by simpa using hv2⟩

/-- After a successful first loop the target of a stream is the entry after the last entry
read as an operator of that stream. -/
theorem scan_redirections_last_target (s : stream) (tokens : List String) :
    ∀ (k : Nat) (cmd : simple_command) (i : Nat),
      (scan_redirections tokens k cmd).1 ≠ none → last_operator_at s tokens i →
      ∃ p, tokens[i + 1]? = some p ∧
        target_of s (scan_redirections tokens k cmd).2 = some p := by
  induction tokens using reading_induction with
  | nil =>
    intro k cmd i _ h
    obtain ⟨⟨hi, _⟩, _⟩ := h
    simp [operator_positions] at hi
  | single t =>
    intro k cmd i hok h
    by_cases ht : is_redirection t = true
    · simp [scan_redirections, ht] at hok
    · obtain ⟨⟨hi, _⟩, _⟩ := h
      simp [operator_positions, ht] at hi
  | pair t u rest ht ih =>
    intro k cmd i hok h
    rw [scan_redirections_pair t u rest k cmd ht] at hok ⊢
    obtain ⟨⟨hi, hex⟩, hlast⟩ := h
    rw [operator_positions_pair t u rest ht] at hi hlast
    simp only [List.mem_cons, List.mem_map] at hi
    rcases hi with rfl | ⟨j, hj, rfl⟩
    · refine ⟨u, by simp, ?_⟩
      have hmem : t ∈ stream_operators s := by
        obtain ⟨v, hv, hv2⟩ := hex
        simp at hv2
        rw [hv2]; exact hv
      rw [scan_redirections_target_kept s rest, target_of_set_target s t u cmd ht, if_pos hmem]
      intro j hj hex2
      have := hlast (j + 2) (by simp [hj]) (by
        obtain ⟨v, hv, hv2⟩ := hex2
        exact ⟨v, hv, by simpa using hv2⟩)
      omega
    · have hl : last_operator_at s rest j := by
        refine ⟨⟨hj, ?_⟩, ?_⟩
        · obtain ⟨v, hv, hv2⟩ := hex
          exact ⟨v, hv, by simpa using hv2⟩
        · intro j2 hj2 hex2
          have := hlast (j2 + 2) (by simp [hj2]) (by
            obtain ⟨v, hv, hv2⟩ := hex2
            exact ⟨v, hv, by simpa using hv2⟩)
          omega
      obtain ⟨p, hp, hp2⟩ := ih (k + 2) (set_target t u cmd) j hok hl
      exact ⟨p, by simpa using hp, hp2⟩
  | word t u rest ht ih =>
    intro k cmd i hok h
    rw [scan_redirections_word t u rest k cmd ht] at hok ⊢
    obtain ⟨⟨hi, hex⟩, hlast⟩ := h
    rw [operator_positions_word t u rest ht] at hi hlast
    simp only [List.mem_map] at hi
    obtain ⟨j, hj, rfl⟩ := hi
    have hl : last_operator_at s (u :: rest) j := by
      refine ⟨⟨hj, ?_⟩, ?_⟩
      · obtain ⟨v, hv, hv2⟩ := hex
        exact ⟨v, hv, by simpa using hv2⟩
      · intro j2 hj2 hex2
        have := hlast (j2 + 1) (by simp [hj2]) (by
          obtain ⟨v, hv, hv2⟩ := hex2
          exact ⟨v, hv, by simpa using hv2⟩)
        omega
    obtain ⟨p, hp, hp2⟩ := ih k cmd j hok hl
    exact ⟨p, by simpa using hp, hp2⟩

/-- The target of a stream after the first loop is the one it had before, or the entry
after an entry read as an operator of that stream. -/
theorem scan_redirections_target_source (s : stream) (tokens : List String) :
    ∀ (k : Nat) (cmd : simple_command),
      target_of s (scan_redirections tokens k cmd).2 = target_of s cmd ∨
        ∃ i p, operator_at s tokens i ∧ tokens[i + 1]? = some p ∧
          target_of s (scan_redirections tokens k cmd).2 = some p := by
  induction tokens using reading_induction with
  | nil => intro k cmd; simp [scan_redirections]
  | single t =>
    intro k cmd
    by_cases ht : is_redirection t = true <;> simp [scan_redirections, ht]
  | pair t u rest ht ih =>
    intro k cmd
    rw [scan_redirections_pair t u rest k cmd ht]
    rcases ih (k + 2) (set_target t u cmd) with h | ⟨i, p, ⟨hi, hex⟩, hp, hp2⟩
    · rw [h, target_of_set_target s t u cmd ht]
      by_cases hmem : t ∈ stream_operators s
      · right
        refine ⟨0, u, ⟨?_, t, hmem, by simp⟩, by simp, by simp [hmem]⟩
        rw [operator_positions_pair t u rest ht]; simp
      · left; simp [hmem]
    · right
      refine ⟨i + 2, p, ⟨?_, ?_⟩, by simpa using hp, hp2⟩
      · rw [operator_positions_pair t u rest ht]; simp [hi]
      · obtain ⟨v, hv, hv2⟩ := hex
        exact ⟨v, hv, by simpa using hv2⟩
  | word t u rest ht ih =>
    intro k cmd
    rw [scan_redirections_word t u rest k cmd ht]
    rcases ih k cmd with h | ⟨i, p, ⟨hi, hex⟩, hp, hp2⟩
    · left; exact h
    · right
      refine ⟨i + 1, p, ⟨?_, ?_⟩, by simpa using hp, hp2⟩
      · rw [operator_positions_word t u rest ht]; simp [hi]
      · obtain ⟨v, hv, hv2⟩ := hex
        exact ⟨v, hv, by simpa using hv2⟩

/-- On an array without redirection operator tokens the first loop changes nothing. -/
theorem scan_redirections_plain (tokens : List String)
    (h : ∀ t ∈ tokens, is_redirection t = false) (k : Nat) (cmd : simple_command) :
    scan_redirections tokens k cmd = (some k, cmd) := by
  induction tokens using reading_induction with
  | nil => simp [scan_redirections]
  | single t => simp [scan_redirections, h t (by simp)]
  | pair t u rest ht ih => simp [h t (by simp)] at ht
  | word t u rest ht ih =>
    rw [scan_redirections_word t u rest k cmd ht]
    exact ih (fun v hv => h v (by simp [hv]))

/-- Where no operator token is followed by another, the second loop copies the array with
each operator token and the token after it deleted. -/
theorem copy_arguments_eq_delete (tokens : List String)
    (h : no_adjacent_redirections tokens) :
    copy_arguments tokens = delete_redirections false tokens := by
  induction tokens using reading_induction with
  | nil => rfl
  | single t =>
    by_cases ht : is_redirection t = true <;> simp [copy_arguments, delete_redirections, ht]
  | pair t u rest ht ih =>
    rw [copy_arguments_pair t u rest ht]
    have hu : is_redirection u = false := by
      simp [no_adjacent_redirections, adjacent_free, ht] at h
      exact h.1
    have hrest : no_adjacent_redirections rest := by
      cases rest with
      | nil => simp [no_adjacent_redirections, adjacent_free]
      | cons v rest2 =>
        simp [no_adjacent_redirections, adjacent_free, ht, hu] at h ⊢
        exact h
    simp [delete_redirections, ht, hu, ih hrest]
  | word t u rest ht ih =>
    rw [copy_arguments_word t u rest ht]
    have hrest : no_adjacent_redirections (u :: rest) := by
      simp [no_adjacent_redirections, adjacent_free, ht] at h ⊢
      exact h
    simp [delete_redirections, ht, ih hrest]

theorem target_of_with_tokens (s : stream) (cmd : simple_command) (ts : List String) :
    target_of s { cmd with tokens := ts } = target_of s cmd := by
  cases s <;> rfl

/-- The status and the record of `extract_redirections` in terms of its first loop. -/
theorem extract_redirections_status (tokens : List String) (cmd : simple_command) :
    ((extract_redirections tokens cmd).1 = -1 ↔ (scan_redirections tokens 0 cmd).1 = none) ∧
      ((extract_redirections tokens cmd).1 = 0 ↔ (scan_redirections tokens 0 cmd).1 ≠ none) ∧
      ∀ s, target_of s (extract_redirections tokens cmd).2 =
        target_of s (scan_redirections tokens 0 cmd).2 := by
  unfold extract_redirections
  rcases hs : scan_redirections tokens 0 cmd with ⟨r, c⟩
  cases r with
  | none => simp
  | some k =>
    by_cases hk : k = 0
    · simp [hk, target_of_with_tokens]
    · simp [hk, target_of_with_tokens]

theorem adjacent_free_cons (bad : String → String → Bool) (x : String) (l : List String)
    (h : adjacent_free bad (x :: l) = true) : adjacent_free bad l = true := by
  cases l with
  | nil => rfl
  | cons y l2 =>
    simp only [adjacent_free, Bool.and_eq_true] at h
    exact h.2

theorem adjacent_free_append_right (bad : String → String → Bool) (a b : List String)
    (h : adjacent_free bad (a ++ b) = true) : adjacent_free bad b = true := by
  induction a with
  | nil => exact h
  | cons x a2 ih => exact ih (adjacent_free_cons bad x (a2 ++ b) h)

/-- The two neighbours at a cut of an array without bad neighbours are not bad. -/
theorem adjacent_free_at_cut (bad : String → String → Bool) (a : List String)
    (x y : String) (b : List String)
    (h : adjacent_free bad (a ++ x :: y :: b) = true) : bad x y = false := by
  have h2 := adjacent_free_append_right bad a (x :: y :: b) h
  simp only [adjacent_free, Bool.and_eq_true] at h2
  simpa using h2.1

theorem extract_redirections_status_cases (tokens : List String) (cmd : simple_command) :
    (extract_redirections tokens cmd).1 = -1 ∨ (extract_redirections tokens cmd).1 = 0 := by
  unfold extract_redirections
  rcases scan_redirections tokens 0 cmd with ⟨r, c⟩
  cases r with
  | none => simp
  | some k => by_cases hk : k = 0 <;> simp [hk]

/-- The cut made by the complex branch, in terms of the tokens before the first `|` and the
tokens after it. -/
theorem split_at_operator_eq (tokens : List String) (h : "|" ∈ tokens) :
    split_at_operator tokens =
      (tokens.takeWhile (fun t => t != "|"), "|",
        (tokens.dropWhile (fun t => t != "|")).tail) := by
  induction tokens with
  | nil => simp at h
  | cons t rest ih =>
    by_cases ht : t = "|"
    · subst ht
      simp [split_at_operator, is_operator]
    · have hrest : "|" ∈ rest := by
        rcases List.mem_cons.1 h with h | h
        · exact absurd h.symm ht
        · exact h
      simp [split_at_operator, is_operator, ht, ih hrest]

/-- A leaf is built from every non-empty array: the result is NULL or a Simple node. -/
theorem construct_leaf_returns (fresh : Nat → simple_command) (off : Nat)
    (tokens : List String) (hne : tokens ≠ []) :
    ∃ cmd, construct_leaf fresh off tokens = some cmd ∧
      ∀ oper cmd1 cmd2, cmd ≠ command.pipeline oper cmd1 cmd2 := by
  cases tokens with
  | nil => exact absurd rfl hne
  | cons t rest =>
    by_cases hb : is_builtin t = true
    · exact ⟨command.simple { fresh off with builtin := 1, tokens := t :: rest },
        by simp only [construct_leaf, hb, if_true], by simp⟩
    · rcases extract_redirections_status_cases (t :: rest) { fresh off with builtin := 0 }
        with he | he
      · exact ⟨command.null, by simp [construct_leaf, hb, he], by simp⟩
      · exact ⟨command.simple
          (extract_redirections (t :: rest) { fresh off with builtin := 0 }).2,
          by simp [construct_leaf, hb, he], by simp⟩

/-- The segments of the part after the first `|` are non-empty when those of the array
are. -/
theorem segments_nonempty_after (s1 s2 : List String)
    (h : segments_nonempty (s1 ++ "|" :: s2)) : segments_nonempty s2 := by
  obtain ⟨_, _, hlast, hadj⟩ := h
  cases s2 with
  | nil => simp at hlast
  | cons y s2b =>
    refine ⟨by simp, ?_, ?_, ?_⟩
    · intro hy
      simp only [List.head?_cons, Option.some.injEq] at hy
      subst hy
      have := adjacent_free_at_cut _ s1 "|" "|" s2b hadj
      simp [is_operator] at this
    · intro hl
      apply hlast
      rw [List.getLast?_append_of_ne_nil _ (by simp),
        List.getLast?_cons_cons]
      exact hl
    · exact adjacent_free_cons _ "|" _ (adjacent_free_append_right _ s1 _ hadj)

/-- With every segment non-empty `construct_command` returns: no NULL is dereferenced. -/
theorem construct_command_returns (fresh : Nat → simple_command) :
    ∀ (n : Nat) (tokens : List String), tokens.length ≤ n → ∀ (off : Nat),
      segments_nonempty tokens → ∃ cmd, construct_command fresh off tokens = some cmd := by
  intro n
  induction n with
  | zero =>
    intro tokens hlen off hseg
    exact absurd (List.length_eq_zero.1 (by omega)) hseg.1
  | succ n ih =>
    intro tokens hlen off hseg
    by_cases hc : is_complex_command tokens = true
    · rw [construct_command_complex fresh off tokens hc]
      obtain ⟨hsplit, hop, hc1⟩ := split_at_operator_spec tokens hc
      have hl := split_at_operator_length tokens hc
      rw [hop]
      generalize (split_at_operator tokens).1 = s1 at *
      generalize (split_at_operator tokens).2.2 = s2 at *
      have hne1 : s1 ≠ [] := by
        intro h1
        subst h1
        rw [hsplit] at hseg
        exact hseg.2.1 rfl
      obtain ⟨c1, h1, _⟩ := construct_leaf_returns fresh off s1 hne1
      rw [← construct_command_simple fresh off s1 hc1] at h1
      have hseg2 : segments_nonempty s2 := by
        rw [hsplit] at hseg
        exact segments_nonempty_after s1 s2 hseg
      obtain ⟨c2, h2⟩ := ih s2 (by omega) (off + s1.length + 1) hseg2
      exact ⟨command.pipeline "|" c1 c2, by rw [h1, h2]; rfl⟩
    · have hc2 : is_complex_command tokens = false := by simpa using hc
      rw [construct_command_simple fresh off tokens hc2]
      obtain ⟨c, h, _⟩ := construct_leaf_returns fresh off tokens hseg.1
      exact ⟨c, h⟩

theorem dropWhile_length_le (p : Char → Bool) (l : List Char) :
    (l.dropWhile p).length ≤ l.length := by
  induction l with
  | nil => simp
  | cons c cs ih =>
    by_cases h : p c = true
    · simp only [List.dropWhile_cons, h, if_true, List.length_cons]; omega
    · simp [List.dropWhile_cons, h]

/-- One round of the outer loop of `parse_line` on a line not at its end leaves fewer
characters to read. -/
theorem parse_line_round_shorter (line : List Char) (h : at_nul line = false) :
    ((line.dropWhile is_delimiter).dropWhile is_word_char).length < line.length := by
  cases line with
  | nil => simp [at_nul] at h
  | cons c cs =>
    have hc : c ≠ '\x00' := by simpa [at_nul] using h
    by_cases hd : is_delimiter c = true
    · have h1 := dropWhile_length_le is_word_char (cs.dropWhile is_delimiter)
      have h2 := dropWhile_length_le is_delimiter cs
      simp only [List.dropWhile_cons, hd, if_true, List.length_cons]
      omega
    · have hd2 : is_delimiter c = false := by simpa using hd
      have hw : is_word_char c = true := by simp [is_word_char, hc, hd2]
      have h1 := dropWhile_length_le is_word_char cs
      simp only [List.dropWhile_cons, hd2, hw, if_true, Bool.false_eq_true, if_false,
        List.length_cons]
      omega

/-- The outer loop of `parse_line` ends within as many rounds as the line has characters:
with that many rounds or more the bound plays no part. -/
theorem parse_line_loop_fuel :
    ∀ (fuel1 fuel2 : Nat) (line : List Char), line.length ≤ fuel1 → line.length ≤ fuel2 →
      parse_line_loop fuel1 line = parse_line_loop fuel2 line := by
  intro fuel1
  induction fuel1 with
  | zero =>
    intro fuel2 line h1 _
    have : line = [] := List.length_eq_zero.1 (by omega)
    subst this
    cases fuel2 <;> simp [parse_line_loop, at_nul]
  | succ n ih =>
    intro fuel2 line h1 h2
    cases fuel2 with
    | zero =>
      have : line = [] := List.length_eq_zero.1 (by omega)
      subst this
      simp [parse_line_loop, at_nul]
    | succ m =>
      by_cases hn : at_nul line = true
      · simp [parse_line_loop, hn]
      · have hn2 : at_nul line = false := by simpa using hn
        have hlt := parse_line_round_shorter line hn2
        simp only [parse_line_loop, hn2, Bool.false_eq_true, if_false]
        rw [ih m _ (by omega) (by omega)]

/-- The rounds of `parse_line`: nothing at the end of the line, else the leading delimiters
are skipped, the characters up to the next delimiter are the next token, and the loop goes on
from there. -/
theorem parse_line_loop_unfold (line : List Char) :
    parse_line_loop line.length line =
      if at_nul line then []
      else
        String.mk ((line.dropWhile is_delimiter).takeWhile is_word_char) ::
          parse_line_loop ((line.dropWhile is_delimiter).dropWhile is_word_char).length
            ((line.dropWhile is_delimiter).dropWhile is_word_char) := by
  by_cases hn : at_nul line = true
  · cases line <;> simp [parse_line_loop, hn]
  · have hn2 : at_nul line = false := by simpa using hn
    have hlt := parse_line_round_shorter line hn2
    cases line with
    | nil => simp [at_nul] at hn2
    | cons c cs =>
      simp only [List.length_cons, parse_line_loop, hn2, Bool.false_eq_true, if_false]
      rw [parse_line_loop_fuel cs.length _ _ (by simp at hlt; omega) (Nat.le_refl _)]

theorem filterMap_range_keep (f g : Nat → Option String) (n : Nat) (t : String)
    (h0 : f 0 = some t) (hs : ∀ i, f (i + 1) = g i) :
    (List.range (n + 1)).filterMap f = t :: (List.range n).filterMap g := by
  rw [List.range_succ_eq_map, List.filterMap_cons, List.filterMap_map, h0]
  simp only
  congr 1
  apply List.filterMap_congr
  intro i _
  exact hs i

theorem filterMap_range_skip (f g : Nat → Option String) (n : Nat)
    (h0 : f 0 = none) (h1 : f 1 = none) (hs : ∀ i, f (i + 2) = g i) :
    (List.range (n + 2)).filterMap f = (List.range n).filterMap g := by
  rw [List.range_succ_eq_map, List.filterMap_cons, List.filterMap_map, h0]
  simp only
  rw [List.range_succ_eq_map, List.filterMap_cons, List.filterMap_map]
  simp only [Function.comp, h1]
  apply List.filterMap_congr
  intro i _
  exact hs i

theorem without_operator_pairs_pair (t u : String) (rest : List String)
    (ht : is_redirection t = true) :
    without_operator_pairs (t :: u :: rest) = without_operator_pairs rest := by
  unfold without_operator_pairs
  rw [operator_positions_pair t u rest ht]
  apply filterMap_range_skip
  · simp
  · simp
  · intro i
    have e2 : (∃ j ∈ 0 :: List.map (fun i => i + 2) (operator_positions rest),
        i + 2 = j + 1) ↔ ∃ j ∈ operator_positions rest, i = j + 1 := by
      constructor
      · rintro ⟨j, hj, he⟩
        rcases List.mem_cons.1 hj with hj | hj
        · omega
        · obtain ⟨j2, hj2, rfl⟩ := List.mem_map.1 hj
          exact ⟨j2, hj2, by omega⟩
      · rintro ⟨j, hj, he⟩
        exact ⟨j + 2, List.mem_cons.2 (Or.inr (List.mem_map.2 ⟨j, hj, rfl⟩)), by omega⟩
    have e1 : i + 2 ∈ 0 :: List.map (fun i => i + 2) (operator_positions rest) ↔
        i ∈ operator_positions rest := by
      simp
    simp only [e1, e2, List.getElem?_cons_succ]

theorem without_operator_pairs_word (t u : String) (rest : List String)
    (ht : is_redirection t = false) :
    without_operator_pairs (t :: u :: rest) = t :: without_operator_pairs (u :: rest) := by
  unfold without_operator_pairs
  rw [operator_positions_word t u rest ht]
  apply filterMap_range_keep
  · simp
  · intro i
    have e1 : i + 1 ∈ List.map (fun i => i + 1) (operator_positions (u :: rest)) ↔
        i ∈ operator_positions (u :: rest) := by
      simp
    have e2 : (∃ j ∈ List.map (fun i => i + 1) (operator_positions (u :: rest)),
        i + 1 = j + 1) ↔ ∃ j ∈ operator_positions (u :: rest), i = j + 1 := by
      constructor
      · rintro ⟨j, hj, he⟩
        obtain ⟨j2, hj2, rfl⟩ := List.mem_map.1 hj
        exact ⟨j2, hj2, by omega⟩
      · rintro ⟨j, hj, he⟩
        exact ⟨j + 1, List.mem_map.2 ⟨j, hj, rfl⟩, by omega⟩
    simp only [e1, e2, List.getElem?_cons_succ]

/-- The second loop copies the array without the entries read as operators and the entries
after them. -/
theorem copy_arguments_eq_without (tokens : List String) :
    copy_arguments tokens = without_operator_pairs tokens := by
  induction tokens using reading_induction with
  | nil => rfl
  | single t =>
    by_cases ht : is_redirection t = true <;>
      simp [copy_arguments, without_operator_pairs, operator_positions, ht, List.range_succ]
  | pair t u rest ht ih =>
    rw [copy_arguments_pair t u rest ht, ih, without_operator_pairs_pair t u rest ht]
  | word t u rest ht ih =>
    rw [copy_arguments_word t u rest ht, ih, without_operator_pairs_word t u rest ht]

/-- A leaf built from a non-empty array without redirection operator tokens is a Simple
node whose arguments are the array. -/
theorem construct_leaf_plain (fresh : Nat → simple_command) (off : Nat)
    (tokens : List String) (hne : tokens ≠ [])
    (hred : ∀ t ∈ tokens, is_redirection t = false) :
    ∃ scmd, construct_leaf fresh off tokens = some (command.simple scmd) ∧
      scmd.tokens = tokens := by
  cases tokens with
  | nil => exact absurd rfl hne
  | cons t rest =>
    by_cases hb : is_builtin t = true
    · refine ⟨{ fresh off with builtin := 1, tokens := t :: rest }, ?_, rfl⟩
      simp only [construct_leaf, hb, if_true]
    · have he : extract_redirections (t :: rest) { fresh off with builtin := 0 } =
          (0, { fresh off with builtin := 0, tokens := t :: rest }) := by
        simp [extract_redirections, scan_redirections_plain (t :: rest) hred]
      refine ⟨{ fresh off with builtin := 0, tokens := t :: rest }, ?_, rfl⟩
      simp only [construct_leaf, hb, he]
      simp

theorem count_pipe_of_not_complex (tokens : List String)
    (h : is_complex_command tokens = false) : tokens.count "|" = 0 := by
  rw [List.count_eq_zero]
  intro hmem
  rw [(is_complex_command_iff tokens).2 hmem] at h
  exact absurd h (by simp)

/-- The tree built from an array without redirection operator tokens and with non-empty
segments reads back as the array. -/
theorem construct_command_flatten (fresh : Nat → simple_command) :
    ∀ (n : Nat) (tokens : List String), tokens.length ≤ n → ∀ (off : Nat),
      segments_nonempty tokens → (∀ t ∈ tokens, is_redirection t = false) →
      ∃ cmd, construct_command fresh off tokens = some cmd ∧
        ["|"].intercalate ((leaves cmd).map (fun scmd => scmd.tokens)) = tokens ∧
        (leaves cmd).length = tokens.count "|" + 1 := by
  intro n
  induction n with
  | zero =>
    intro tokens hlen off hseg _
    exact absurd (List.length_eq_zero.1 (by omega)) hseg.1
  | succ n ih =>
    intro tokens hlen off hseg hred
    by_cases hc : is_complex_command tokens = true
    · rw [construct_command_complex fresh off tokens hc]
      obtain ⟨hsplit, hop, hc1⟩ := split_at_operator_spec tokens hc
      have hl := split_at_operator_length tokens hc
      rw [hop]
      generalize (split_at_operator tokens).1 = s1 at *
      generalize (split_at_operator tokens).2.2 = s2 at *
      have hne1 : s1 ≠ [] := by
        intro h1
        subst h1
        rw [hsplit] at hseg
        exact hseg.2.1 rfl
      have hred1 : ∀ t ∈ s1, is_redirection t = false := fun t ht =>
        hred t (by rw [hsplit]; simp [ht])
      have hred2 : ∀ t ∈ s2, is_redirection t = false := fun t ht =>
        hred t (by rw [hsplit]; simp [ht])
      obtain ⟨scmd, h1, htok⟩ := construct_leaf_plain fresh off s1 hne1 hred1
      rw [← construct_command_simple fresh off s1 hc1] at h1
      have hseg2 : segments_nonempty s2 := by
        rw [hsplit] at hseg
        exact segments_nonempty_after s1 s2 hseg
      obtain ⟨c2, h2, hflat, hcount⟩ := ih s2 (by omega) (off + s1.length + 1) hseg2 hred2
      refine ⟨command.pipeline "|" (command.simple scmd) c2, by rw [h1, h2]; rfl, ?_, ?_⟩
      · have hne : (leaves c2).map (fun scmd => scmd.tokens) ≠ [] := by
          intro h0
          have := congrArg List.length h0
          rw [List.length_map, List.length_nil] at this
          omega
        obtain ⟨x, xs, hx⟩ := List.exists_cons_of_ne_nil hne
        simp only [leaves, List.singleton_append, List.map_cons]
        rw [hx] at hflat ⊢
        rw [hsplit, ← hflat, htok]
        simp [List.intercalate]
      · have hc0 := count_pipe_of_not_complex s1 hc1
        rw [hsplit]
        simp only [leaves, List.singleton_append, List.length_cons, hcount,
          List.count_append, List.count_cons_self, hc0]
        omega
    · have hc2 : is_complex_command tokens = false := by simpa using hc
      rw [construct_command_simple fresh off tokens hc2]
      obtain ⟨scmd, h, htok⟩ := construct_leaf_plain fresh off tokens hseg.1 hred
      refine ⟨command.simple scmd, h, ?_, ?_⟩
      · simp [leaves, List.intercalate, htok]
      · simp [leaves, count_pipe_of_not_complex tokens hc2]

theorem dropWhile_head_fails (p : Char → Bool) (l : List Char) (d : Char) (r : List Char)
    (h : l.dropWhile p = d :: r) : p d = false := by
  induction l with
  | nil => simp at h
  | cons c cs ih =>
    by_cases hc : p c = true
    · simp only [List.dropWhile_cons, hc, if_true] at h
      exact ih h
    · simp only [List.dropWhile_cons, hc, Bool.false_eq_true, if_false, List.cons.injEq] at h
      rw [← h.1]
      simpa using hc

theorem words_nil : words [] = [] := by
  simp [words]

theorem words_cons_delimiter (c : Char) (cs : List Char) (h : is_delimiter c = true) :
    words (c :: cs) = words cs := by
  simp [words, List.splitOnP_cons, h]

theorem words_dropWhile (l : List Char) : words (l.dropWhile is_delimiter) = words l := by
  induction l with
  | nil => rfl
  | cons c cs ih =>
    by_cases h : is_delimiter c = true
    · simp only [List.dropWhile_cons, h, if_true]
      rw [ih, words_cons_delimiter c cs h]
    · simp [List.dropWhile_cons, h]

/-- The runs of a line without NUL: the characters up to the first delimiter, if any, then
the runs of what follows them. -/
theorem words_takeWhile (l : List Char) (hnul : ∀ c ∈ l, c ≠ '\x00') :
    words l =
      (if l.takeWhile is_word_char = [] then [] else [l.takeWhile is_word_char]) ++
        words (l.dropWhile is_word_char) := by
  have htw : ∀ x ∈ l.takeWhile is_word_char, ¬ is_delimiter x = true := by
    intro x hx
    have := List.mem_takeWhile_imp hx
    simp only [is_word_char, Bool.and_eq_true, Bool.not_eq_true'] at this
    simp [this.2]
  have hsplit := List.takeWhile_append_dropWhile is_word_char l
  cases hd : l.dropWhile is_word_char with
  | nil =>
    rw [hd, List.append_nil] at hsplit
    have ht : l.takeWhile is_word_char = l := hsplit
    rw [ht] at htw ⊢
    rw [words_nil, List.append_nil]
    unfold words
    rw [List.splitOnP_eq_single is_delimiter l htw]
    cases l <;> simp
  | cons d r =>
    have hdw := dropWhile_head_fails is_word_char l d r hd
    have hdl : d ∈ l := by
      rw [← hsplit, hd]; simp
    have hdd : is_delimiter d = true := by
      have hn := hnul d hdl
      simp only [is_word_char, Bool.and_eq_false_iff, bne_eq_false_iff_eq,
        Bool.not_eq_false'] at hdw
      rcases hdw with h | h
      · exact absurd h hn
      · exact h
    rw [words_cons_delimiter d r hdd]
    rw [hd] at hsplit
    conv_lhs => rw [← hsplit]
    unfold words
    rw [List.splitOnP_first is_delimiter _ htw d hdd r]
    cases ht : l.takeWhile is_word_char <;> simp

theorem ends_with_delimiter_append (a b : List Char) (hb : b ≠ []) :
    ends_with_delimiter (a ++ b) = ends_with_delimiter b := by
  unfold ends_with_delimiter
  rw [List.getLast?_append_of_ne_nil a hb]

theorem ends_with_delimiter_of_all (p : Char → Bool) (l : List Char) (hne : l ≠ [])
    (h : ∀ x ∈ l, p x = true) (v : Bool) (hp : ∀ x, p x = true → is_delimiter x = v) :
    ends_with_delimiter l = v := by
  unfold ends_with_delimiter
  rw [List.getLast?_eq_getLast l hne]
  exact hp _ (h _ (List.getLast_mem hne))

/-- The tokens of a line without NUL are its runs of non-delimiter characters, and one more
empty token when the line ends with a delimiter. -/
theorem parse_line_loop_words :
    ∀ (n : Nat) (l : List Char), l.length ≤ n → (∀ c ∈ l, c ≠ '\x00') →
      parse_line_loop l.length l =
        (words l).map String.mk ++ (if ends_with_delimiter l then [""] else []) := by
  intro n
  induction n with
  | zero =>
    intro l hlen _
    have : l = [] := List.length_eq_zero.1 (by omega)
    subst this
    simp [parse_line_loop, words_nil, ends_with_delimiter]
  | succ n ih =>
    intro l hlen hnul
    cases hl : l with
    | nil => simp [parse_line_loop, words_nil, ends_with_delimiter]
    | cons c0 cs0 =>
      rw [← hl]
      have hne : l ≠ [] := by rw [hl]; simp
      have hat : at_nul l = false := by
        rw [hl]
        simpa [at_nul] using hnul c0 (by rw [hl]; simp)
      have hlt := parse_line_round_shorter l hat
      rw [parse_line_loop_unfold l, hat]
      simp only [Bool.false_eq_true, if_false]
      have hsplit1 := List.takeWhile_append_dropWhile is_delimiter l
      have hsplit2 := List.takeWhile_append_dropWhile is_word_char (l.dropWhile is_delimiter)
      generalize hl1 : l.dropWhile is_delimiter = line1 at *
      have hnul1 : ∀ c ∈ line1, c ≠ '\x00' := fun c hc =>
        hnul c (by rw [← hsplit1]; simp [hc])
      have hw := words_takeWhile line1 hnul1
      generalize hl2 : line1.dropWhile is_word_char = line2 at *
      generalize htw : line1.takeWhile is_word_char = tw at *
      have hnul2 : ∀ c ∈ line2, c ≠ '\x00' := fun c hc =>
        hnul1 c (by rw [← hsplit2]; simp [hc])
      rw [ih line2 (by omega) hnul2, ← words_dropWhile l, hl1, hw]
      cases hline1 : line1 with
      | nil =>
        have h2 : line2 = [] := by rw [← hl2, hline1]; rfl
        have ht : tw = [] := by rw [← htw, hline1]; rfl
        have hall : ∀ x ∈ l, is_delimiter x = true :=
          List.dropWhile_eq_nil_iff.1 (by rw [hl1, hline1])
        have hend : ends_with_delimiter l = true :=
          ends_with_delimiter_of_all is_delimiter l hne hall true (fun _ h => h)
        rw [h2, ht, hend]
        simp [words_nil, ends_with_delimiter]
      | cons c1 cs1 =>
        have hne1 : line1 ≠ [] := by rw [hline1]; simp
        have hc1 : is_delimiter c1 = false :=
          dropWhile_head_fails is_delimiter l c1 cs1 (by rw [hl1, hline1])
        have hwc1 : is_word_char c1 = true := by
          have := hnul1 c1 (by rw [hline1]; simp)
          simp [is_word_char, this, hc1]
        have htne : tw ≠ [] := by
          rw [← htw, hline1]
          simp [List.takeWhile_cons, hwc1]
        have hend1 : ends_with_delimiter l = ends_with_delimiter line1 := by
          rw [← hsplit1]
          exact ends_with_delimiter_append _ _ hne1
        have hend2 : ends_with_delimiter line1 = ends_with_delimiter line2 := by
          by_cases h2 : line2 = []
          · have hall : ∀ x ∈ line1, is_word_char x = true :=
              List.dropWhile_eq_nil_iff.1 (by rw [hl2, h2])
            rw [h2, ends_with_delimiter_of_all is_word_char line1 hne1 hall false]
            · rfl
            · intro x hx
              simp only [is_word_char, Bool.and_eq_true, Bool.not_eq_true'] at hx
              exact hx.2
          · rw [← hsplit2]
            exact ends_with_delimiter_append _ _ h2
        rw [hend1, hend2]
        simp [htne]

/-- C1: for every non-empty token sequence that contains no pipe token and none of the
redirection operator tokens `<`, `>`, `2>`, `&>`, `construct_command` returns a single Simple
leaf (no Pipeline node) whose argument sequence is exactly the input token sequence. -/
theorem construct_command_plain (fresh : Nat → simple_command) (off : Nat)
    (tokens : List String) (hne : tokens ≠ []) (hpipe : "|" ∉ tokens)
    (hin : "<" ∉ tokens) (hout : ">" ∉ tokens) (herr : "2>" ∉ tokens)
    (hboth : "&>" ∉ tokens) :
    ∃ scmd, construct_command fresh off tokens = some (command.simple scmd) ∧
      scmd.tokens = tokens := by
  have hc : is_complex_command tokens = false := by
    rw [← Bool.not_eq_true, is_complex_command_iff]
    exact hpipe
  have hred : ∀ t ∈ tokens, is_redirection t = false := by
    intro t ht
    rw [← Bool.not_eq_true, is_redirection_iff]
    rintro (h | h | h | h) <;> subst h
    · exact hin ht
    · exact hout ht
    · exact herr ht
    · exact hboth ht
  rw [construct_command_simple fresh off tokens hc]
  cases tokens with
  | nil => exact absurd rfl hne
  | cons t rest =>
    by_cases hb : is_builtin t = true
    · refine ⟨{ fresh off with builtin := 1, tokens := t :: rest }, ?_, rfl⟩
      simp only [construct_leaf, hb, if_true]
    · have he : extract_redirections (t :: rest) { fresh off with builtin := 0 } =
          (0, { fresh off with builtin := 0, tokens := t :: rest }) := by
        simp [extract_redirections, scan_redirections_plain (t :: rest) hred]
      refine ⟨{ fresh off with builtin := 0, tokens := t :: rest }, ?_, rfl⟩
      simp only [construct_leaf, hb, he]
      simp

/-- Witness for C1: the tokens of `ls -l /tmp`. -/
theorem construct_command_plain_witness :
    ∃ scmd, construct_command (fun _ => zeroed) 0 ["ls", "-l", "/tmp"] =
        some (command.simple scmd) ∧ scmd.tokens = ["ls", "-l", "/tmp"] :=
  construct_command_plain (fun _ => zeroed) 0 ["ls", "-l", "/tmp"]
    (by decide) (by decide) (by decide) (by decide) (by decide) (by decide)

/-- C2, counterexample: the tokens of `ls |` contain a pipe token, and `construct_command`
returns no node on them: its call on the empty array after the `|` passes the NULL entry to
`is_builtin`. -/
theorem construct_command_pipeline_counterexample :
    "|" ∈ ["ls", "|"] ∧ construct_command (fun _ => zeroed) 0 ["ls", "|"] = none := by
  decide

/-- C2, amended: for every token sequence that contains at least one pipe token and whose
pipe-separated segments are all non-empty (it neither starts nor ends with `|` and has no
two adjacent `|`), `construct_command` returns a Pipeline node whose left child is
`construct_command` applied to the tokens before the first `|` and whose right child is
`construct_command` applied to the tokens after that first `|`; the left child is never a
Pipeline node, so `a | b | c` builds Pipeline(a, Pipeline(b, c)). -/
theorem construct_command_pipeline (fresh : Nat → simple_command) (off : Nat)
    (tokens : List String) (hpipe : "|" ∈ tokens) (hseg : segments_nonempty tokens) :
    ∃ cmd1 cmd2,
      construct_command fresh off (tokens.takeWhile (fun t => t != "|")) = some cmd1 ∧
      construct_command fresh (off + (tokens.takeWhile (fun t => t != "|")).length + 1)
        (tokens.dropWhile (fun t => t != "|")).tail = some cmd2 ∧
      construct_command fresh off tokens = some (command.pipeline "|" cmd1 cmd2) ∧
      ∀ oper left right, cmd1 ≠ command.pipeline oper left right := by
  have hc : is_complex_command tokens = true := (is_complex_command_iff tokens).2 hpipe
  have hcx := construct_command_complex fresh off tokens hc
  obtain ⟨hsplit, _, hc1⟩ := split_at_operator_spec tokens hc
  rw [split_at_operator_eq tokens hpipe] at hcx hsplit hc1
  simp only at hcx hsplit hc1
  generalize tokens.takeWhile (fun t => t != "|") = s1 at *
  generalize (tokens.dropWhile (fun t => t != "|")).tail = s2 at *
  have hne1 : s1 ≠ [] := by
    intro h1
    subst h1
    rw [hsplit] at hseg
    exact hseg.2.1 rfl
  obtain ⟨c1, h1, hleaf⟩ := construct_leaf_returns fresh off s1 hne1
  rw [← construct_command_simple fresh off s1 hc1] at h1
  have hseg2 : segments_nonempty s2 := by
    rw [hsplit] at hseg
    exact segments_nonempty_after s1 s2 hseg
  obtain ⟨c2, h2⟩ :=
    construct_command_returns fresh s2.length s2 (Nat.le_refl _) (off + s1.length + 1) hseg2
  refine ⟨c1, c2, h1, h2, ?_, hleaf⟩
  rw [hcx, h1, h2]
  rfl

/-- Witness for C2: the tokens of `a | b | c` build Pipeline(a, Pipeline(b, c)). -/
theorem construct_command_pipeline_witness :
    ("|" ∈ ["a", "|", "b", "|", "c"] ∧ segments_nonempty ["a", "|", "b", "|", "c"] ∧
      construct_command (fun _ => zeroed) 0 ["a", "|", "b", "|", "c"] =
        some (command.pipeline "|" (command.simple { zeroed with tokens := ["a"] })
          (command.pipeline "|" (command.simple { zeroed with tokens := ["b"] })
            (command.simple { zeroed with tokens := ["c"] })))) ∧
      ∃ cmd1 cmd2,
        construct_command (fun _ => zeroed) 0
          (["a", "|", "b", "|", "c"].takeWhile (fun t => t != "|")) = some cmd1 ∧
        construct_command (fun _ => zeroed)
          (0 + (["a", "|", "b", "|", "c"].takeWhile (fun t => t != "|")).length + 1)
          (["a", "|", "b", "|", "c"].dropWhile (fun t => t != "|")).tail = some cmd2 ∧
        construct_command (fun _ => zeroed) 0 ["a", "|", "b", "|", "c"] =
          some (command.pipeline "|" cmd1 cmd2) ∧
        ∀ oper left right, cmd1 ≠ command.pipeline oper left right :=
  ⟨by decide,
    construct_command_pipeline (fun _ => zeroed) 0 ["a", "|", "b", "|", "c"]
      (by decide) (by decide)⟩

/-- C3, counterexample: on the tokens of `ls > < f` `extract_redirections` succeeds and
stores the arguments `ls f`, although `f` is the token that follows the operator token `<`:
deleting every redirection operator token and the token after it leaves `ls` alone. -/
theorem extract_redirections_cleaned_counterexample :
    extract_redirections ["ls", ">", "<", "f"] zeroed =
        (0, { zeroed with out := some "<", tokens := ["ls", "f"] }) ∧
      delete_redirections false ["ls", ">", "<", "f"] = ["ls"] := by
  decide

/-- C3, amended: for every token sequence on which `extract_redirections` succeeds, the
cleaned argument sequence equals the input with every token read as a redirection operator
(a redirection operator token that is not itself the target of the operator before it) and
the one token that follows it deleted, the remaining tokens in their original order; where
no redirection operator token is immediately followed by another, that is the input with
every redirection operator token and the one token that follows it deleted. -/
theorem extract_redirections_cleaned (tokens : List String) (cmd cmd1 : simple_command)
    (h : extract_redirections tokens cmd = (0, cmd1)) :
    cmd1.tokens = without_operator_pairs tokens ∧
      (no_adjacent_redirections tokens → cmd1.tokens = delete_redirections false tokens) := by
  rw [extract_redirections_tokens tokens cmd cmd1 h]
  exact ⟨copy_arguments_eq_without tokens, copy_arguments_eq_delete tokens⟩

/-- Witness for C3: the tokens of `sort < in -r > out`. -/
theorem extract_redirections_cleaned_witness :
    extract_redirections ["sort", "<", "in", "-r", ">", "out"] zeroed =
        (0, { zeroed with in_ := some "in", out := some "out", tokens := ["sort", "-r"] }) ∧
      (["sort", "-r"] = without_operator_pairs ["sort", "<", "in", "-r", ">", "out"] ∧
        (no_adjacent_redirections ["sort", "<", "in", "-r", ">", "out"] →
          ["sort", "-r"] = delete_redirections false ["sort", "<", "in", "-r", ">", "out"])) :=
  ⟨by decide,
    extract_redirections_cleaned ["sort", "<", "in", "-r", ">", "out"] zeroed
      { zeroed with in_ := some "in", out := some "out", tokens := ["sort", "-r"] }
      (by decide)⟩

/-- C4: for every token sequence on which `extract_redirections` succeeds and for each
stream, if an operator of the stream occurs as an operator (`<` for input, `>` or `&>` for
output, `2>` or `&>` for error), the target stored for the stream is the token following the
last such occurrence: `&>` sets output and error alike and the operator read last wins. -/
theorem extract_redirections_targets (tokens : List String) (cmd cmd1 : simple_command)
    (h : extract_redirections tokens cmd = (0, cmd1)) (s : stream) (i : Nat)
    (hlast : last_operator_at s tokens i) :
    ∃ p, tokens[i + 1]? = some p ∧ target_of s cmd1 = some p := by
  obtain ⟨_, h0, ht⟩ := extract_redirections_status tokens cmd
  have hok : (scan_redirections tokens 0 cmd).1 ≠ none := h0.1 (by rw [h])
  obtain ⟨p, hp, hp2⟩ := scan_redirections_last_target s tokens 0 cmd i hok hlast
  refine ⟨p, hp, ?_⟩
  have := ht s
  rw [h] at this
  rw [this, hp2]

/-- Witness for C4: the tokens of `cmd > a &> b 2> c` give output `b` and error `c`. -/
theorem extract_redirections_targets_witness :
    (∃ p, ["cmd", ">", "a", "&>", "b", "2>", "c"][3 + 1]? = some p ∧
        target_of stream.output
          { zeroed with out := some "b", err := some "c", tokens := ["cmd"] } = some p) ∧
      (∃ p, ["cmd", ">", "a", "&>", "b", "2>", "c"][5 + 1]? = some p ∧
        target_of stream.error
          { zeroed with out := some "b", err := some "c", tokens := ["cmd"] } = some p) :=
  ⟨extract_redirections_targets ["cmd", ">", "a", "&>", "b", "2>", "c"] zeroed
      { zeroed with out := some "b", err := some "c", tokens := ["cmd"] }
      (by decide) stream.output 3 (by decide),
    extract_redirections_targets ["cmd", ">", "a", "&>", "b", "2>", "c"] zeroed
      { zeroed with out := some "b", err := some "c", tokens := ["cmd"] }
      (by decide) stream.error 5 (by decide)⟩

/-- C5, counterexample: the last token of `ls > >` is the redirection operator `>`, yet
`extract_redirections` succeeds on it (the second `>` is taken as the target of the first)
and `construct_command` returns a Simple leaf. -/
theorem extract_redirections_dangling_counterexample :
    extract_redirections ["ls", ">", ">"] zeroed =
        (0, { zeroed with out := some ">", tokens := ["ls"] }) ∧
      construct_command (fun _ => zeroed) 0 ["ls", ">", ">"] =
        some (command.simple { zeroed with out := some ">", tokens := ["ls"] }) := by
  decide

/-- C5, amended: for every token sequence whose last token is a redirection operator read in
operator place (it is not taken as the target of an operator before it),
`extract_redirections` returns `-1`, and `construct_command` on such a pipe-free sequence
whose first token is not a builtin returns NULL. -/
theorem extract_redirections_dangling (tokens : List String) (cmd : simple_command)
    (fresh : Nat → simple_command) (off : Nat)
    (hlast : tokens.length - 1 ∈ operator_positions tokens) :
    (extract_redirections tokens cmd).1 = -1 ∧
      ("|" ∉ tokens → (∀ t, tokens.head? = some t → is_builtin t = false) →
        construct_command fresh off tokens = some command.null) := by
  have hfail : ∀ c, (extract_redirections tokens c).1 = -1 := fun c =>
    (extract_redirections_status tokens c).1.2
      ((scan_redirections_fails_iff tokens 0 c).2 hlast)
  refine ⟨hfail cmd, ?_⟩
  intro hpipe hb
  have hc : is_complex_command tokens = false := by
    rw [← Bool.not_eq_true, is_complex_command_iff]
    exact hpipe
  rw [construct_command_simple fresh off tokens hc]
  cases tokens with
  | nil => simp [operator_positions] at hlast
  | cons t rest =>
    have hbt : is_builtin t = false := hb t rfl
    simp only [construct_leaf, hbt, hfail]
    simp

/-- Witness for C5: the tokens of `ls >`. -/
theorem extract_redirections_dangling_witness :
    ["ls", ">"].length - 1 ∈ operator_positions ["ls", ">"] ∧
      ((extract_redirections ["ls", ">"] zeroed).1 = -1 ∧
        ("|" ∉ ["ls", ">"] → (∀ t, ["ls", ">"].head? = some t → is_builtin t = false) →
          construct_command (fun _ => zeroed) 0 ["ls", ">"] = some command.null)) :=
  ⟨by decide, extract_redirections_dangling ["ls", ">"] zeroed (fun _ => zeroed) 0 (by decide)⟩

/-- C6, counterexample: in the tokens of `ls > < f` the operator token `>` is immediately
followed by the operator token `<`, yet `extract_redirections` returns 0 and the output
target it stores is the operator token `<`. -/
theorem extract_redirections_adjacent_counterexample :
    (extract_redirections ["ls", ">", "<", "f"] zeroed).1 = 0 ∧
      (extract_redirections ["ls", ">", "<", "f"] zeroed).2.out = some "<" ∧
      is_redirection "<" = true := by
  decide

/-- C6, amended: a redirection operator token immediately followed by another one does not
make `extract_redirections` fail: it returns `-1` exactly when the last token is read in
operator place; and whenever it succeeds, each target it holds is either the one the record
held before or the token right after a token read as an operator of that stream, whatever
that token is (an operator token included). -/
theorem extract_redirections_adjacent (tokens : List String) (cmd : simple_command) :
    ((extract_redirections tokens cmd).1 = -1 ↔
        tokens.length - 1 ∈ operator_positions tokens) ∧
      ((extract_redirections tokens cmd).1 = 0 → ∀ s : stream,
        target_of s (extract_redirections tokens cmd).2 = target_of s cmd ∨
          ∃ i p, operator_at s tokens i ∧ tokens[i + 1]? = some p ∧
            target_of s (extract_redirections tokens cmd).2 = some p) := by
  obtain ⟨h1, _, ht⟩ := extract_redirections_status tokens cmd
  refine ⟨h1.trans (scan_redirections_fails_iff tokens 0 cmd), ?_⟩
  intro _ s
  rw [ht s]
  exact scan_redirections_target_source s tokens 0 cmd

/-- Witness for C6: on the tokens of `ls > < f` the call succeeds and the output target it
holds is the token after the `>` read as an operator, which is the token `<`. -/
theorem extract_redirections_adjacent_witness :
    (extract_redirections ["ls", ">", "<", "f"] zeroed).1 = 0 ∧
      (target_of stream.output (extract_redirections ["ls", ">", "<", "f"] zeroed).2 =
          target_of stream.output zeroed ∨
        ∃ i p, operator_at stream.output ["ls", ">", "<", "f"] i ∧
          ["ls", ">", "<", "f"][i + 1]? = some p ∧
          target_of stream.output (extract_redirections ["ls", ">", "<", "f"] zeroed).2 =
            some p) :=
  ⟨by decide,
    (extract_redirections_adjacent ["ls", ">", "<", "f"] zeroed).2 (by decide) stream.output⟩

/-- C7: on the tokens of `ls > | cat` redirection resolution fails on the left segment, and
`construct_command` all the same returns a Pipeline node, whose left child is NULL and whose
right child is the leaf of `cat`. -/
theorem construct_command_failed_segment (fresh : Nat → simple_command) :
    construct_command fresh 0 ["ls", ">", "|", "cat"] =
      some (command.pipeline "|" command.null
        (command.simple { fresh 3 with builtin := 0, tokens := ["cat"] })) := by
  rfl

/-- C8: a line that ends in a delimiter yields one more token, the empty one: the line of a
single space gives one empty token, the line `ls ` gives `ls` and an empty token. -/
theorem parse_line_trailing_delimiter :
    parse_line " " = [""] ∧ parse_line "ls " = ["ls", ""] ∧
      parse_line " \t\n" = [""] := by
  decide

/-- C11: from `/home/u` the argument list `cd a b`, with two arguments after `cd`, makes
`execute_cd` return 0 and change the working directory to `/home/u/a`: only `words[1]` is
tested against NULL, `words[2]` is never read. With no argument (`cd` alone) the status is
`EXIT_FAILURE` and the working directory is unchanged. -/
theorem execute_cd_extra_arguments :
    execute_cd "/home/u" ["cd", "a", "b"] = some (0, "/home/u/a") ∧
      execute_cd "/home/u" ["cd"] = some (EXIT_FAILURE, "/home/u") := by
  decide

/-- C12: for the leaf of `sort < in > out` the chain of `else if` makes the output
redirection only, standard input stays what the process inherited; for the leaf of
`cmd > o 2> e` standard error is made a copy of standard output, the file `o`, and the
path `e` is never opened. -/
theorem execute_nonbuiltin_single_redirection :
    (apply_redirections (parent_kernel 0 0)
        { zeroed with in_ := some "in", out := some "out", tokens := ["sort"] }
        initial_process).fds STDIN = some (open_file.inherited 0) ∧
      (apply_redirections (parent_kernel 0 0)
        { zeroed with in_ := some "in", out := some "out", tokens := ["sort"] }
        initial_process).fds STDOUT = some (open_file.file "out") ∧
      (apply_redirections (parent_kernel 0 0)
        { zeroed with out := some "o", err := some "e", tokens := ["cmd"] }
        initial_process).fds STDERR = some (open_file.file "o") ∧
      (execute_nonbuiltin (parent_kernel 0 0)
        { zeroed with out := some "o", err := some "e", tokens := ["cmd"] }
        initial_process).1.calls =
        [syscall.open_ "o", syscall.fcntl 3, syscall.dup2 3 1, syscall.dup2 1 2,
          syscall.close 3, syscall.execvp ["cmd"]] := by
  decide

/-- C13: on a Pipeline node, when the pipe and both forks succeed, the parent returns 0
whatever the statuses of the two children: the status the second `waitpid` stores is not
returned. -/
theorem execute_complex_command_status (sys : Nat → kernel) (depth : Nat)
    (cmd1 cmd2 : command) (p : process) (hpipe : (sys depth).pipe_ok = true)
    (h1 : 0 < (sys depth).pid1) (h2 : 0 < (sys depth).pid2) :
    (execute_complex_command sys depth (command.pipeline "|" cmd1 cmd2) p).2 =
      outcome.returned 0 := by
  have a1 : ¬ (sys depth).pid1 < 0 := by omega
  have a2 : ¬ (sys depth).pid1 = 0 := by omega
  have a3 : ¬ (sys depth).pid2 < 0 := by omega
  have a4 : ¬ (sys depth).pid2 = 0 := by omega
  simp [execute_complex_command, pipe_branch, hpipe, a1, a2, a3, a4]

/-- Witness for C13: the second child ends with status 256, the first with 0, and the parent
returns 0. -/
theorem execute_complex_command_status_witness :
    (execute_complex_command (fun _ => parent_kernel 0 256) 0
        (command.pipeline "|" (command.simple { zeroed with tokens := ["false"] })
          (command.simple { zeroed with tokens := ["false"] })) initial_process).2 =
      outcome.returned 0 ∧ (parent_kernel 0 256).status2 = 256 :=
  ⟨execute_complex_command_status (fun _ => parent_kernel 0 256) 0 _ _ initial_process
    (by decide) (by decide) (by decide), by decide⟩

/-- C14: for every pipe-free token sequence whose first token is `cd` or `exit`,
`construct_command` returns a Simple leaf marked builtin whose argument sequence is the whole
input, operator tokens and their targets included; `extract_redirections` is not run, the
three targets are left as allocated and the build cannot fail. -/
theorem construct_command_builtin (fresh : Nat → simple_command) (off : Nat)
    (tokens : List String) (hpipe : "|" ∉ tokens)
    (hb : tokens.head? = some "cd" ∨ tokens.head? = some "exit") :
    construct_command fresh off tokens =
      some (command.simple { fresh off with builtin := 1, tokens := tokens }) := by
  have hc : is_complex_command tokens = false := by
    rw [← Bool.not_eq_true, is_complex_command_iff]
    exact hpipe
  rw [construct_command_simple fresh off tokens hc]
  cases tokens with
  | nil => simp at hb
  | cons t rest =>
    have ht : is_builtin t = true := by
      simp only [List.head?_cons, Option.some.injEq] at hb
      rcases hb with h | h <;> subst h <;> decide
    simp only [construct_leaf, ht, if_true]

/-- Witness for C14: the tokens of `cd > f` and of `cd >`. -/
theorem construct_command_builtin_witness :
    construct_command (fun _ => zeroed) 0 ["cd", ">", "f"] =
        some (command.simple { zeroed with builtin := 1, tokens := ["cd", ">", "f"] }) ∧
      construct_command (fun _ => zeroed) 0 ["cd", ">"] =
        some (command.simple { zeroed with builtin := 1, tokens := ["cd", ">"] }) :=
  ⟨construct_command_builtin (fun _ => zeroed) 0 ["cd", ">", "f"] (by decide) (by decide),
    construct_command_builtin (fun _ => zeroed) 0 ["cd", ">"] (by decide) (by decide)⟩

/-- C15: on a Pipeline node, when the pipe and both forks succeed, the calls the parent
makes are `pipe`, `fork`, `fork`, the `close` of the read end, the `close` of the write end,
`waitpid` on the first child and `waitpid` on the second: both descriptors are closed before
any wait, and both children are waited for. -/
theorem execute_complex_command_parent_calls (sys : Nat → kernel) (depth : Nat)
    (cmd1 cmd2 : command) (p : process) (hpipe : (sys depth).pipe_ok = true)
    (h1 : 0 < (sys depth).pid1) (h2 : 0 < (sys depth).pid2) :
    ∃ calls,
      (execute_complex_command sys depth (command.pipeline "|" cmd1 cmd2) p).1.calls =
        p.calls ++ calls ∧
      calls = [syscall.pipe, syscall.fork, syscall.fork, syscall.close (sys depth).pfd0,
        syscall.close (sys depth).pfd1, syscall.waitpid (sys depth).pid1,
        syscall.waitpid (sys depth).pid2] ∧
      closed_before_wait (sys depth).pfd0 calls = true ∧
      closed_before_wait (sys depth).pfd1 calls = true ∧
      syscall.waitpid (sys depth).pid1 ∈ calls ∧ syscall.waitpid (sys depth).pid2 ∈ calls := by
  have a1 : ¬ (sys depth).pid1 < 0 := by omega
  have a2 : ¬ (sys depth).pid1 = 0 := by omega
  have a3 : ¬ (sys depth).pid2 < 0 := by omega
  have a4 : ¬ (sys depth).pid2 = 0 := by omega
  refine ⟨_, ?_, rfl, ?_, ?_, ?_, ?_⟩
  · simp [execute_complex_command, pipe_branch, hpipe, a1, a2, a3, a4, sys_call, sys_close,
      sys_pipe]
  · simp [closed_before_wait]
  · by_cases h : (sys depth).pfd0 = (sys depth).pfd1 <;> simp [closed_before_wait, h]
  · simp
  · simp

/-- Witness for C15: the parent of `a | b` with the pipe on descriptors 3 and 4 and the
children 101 and 102. -/
theorem execute_complex_command_parent_calls_witness :
    ∃ calls,
      (execute_complex_command (fun _ => parent_kernel 0 0) 0
        (command.pipeline "|" (command.simple { zeroed with tokens := ["a"] })
          (command.simple { zeroed with tokens := ["b"] })) initial_process).1.calls =
        initial_process.calls ++ calls ∧
      calls = [syscall.pipe, syscall.fork, syscall.fork, syscall.close 3, syscall.close 4,
        syscall.waitpid 101, syscall.waitpid 102] ∧
      closed_before_wait 3 calls = true ∧ closed_before_wait 4 calls = true ∧
      syscall.waitpid 101 ∈ calls ∧ syscall.waitpid 102 ∈ calls :=
  execute_complex_command_parent_calls (fun _ => parent_kernel 0 0) 0 _ _ initial_process
    (by decide) (by decide) (by decide)

/-- C16: for every input line (a C string, so without NUL inside) the tokens `parse_line`
produces are the maximal runs of non-whitespace characters of the line, left to right,
followed by exactly one empty token if and only if the line is non-empty and its last
character is a space, tab or newline. -/
theorem parse_line_words (line : String) (hnul : ∀ c ∈ line.data, c ≠ '\x00') :
    parse_line line =
      (words line.data).map String.mk ++
        (if ends_with_delimiter line.data then [""] else []) :=
  parse_line_loop_words line.data.length line.data (Nat.le_refl _) hnul

/-- Witness for C16: the line `ls -l` followed by a space, and the line ` a\tb`. -/
theorem parse_line_words_witness :
    ((∀ c ∈ "ls -l ".data, c ≠ '\x00') ∧ words "ls -l ".data = ["ls".data, "-l".data] ∧
      ends_with_delimiter "ls -l ".data = true) ∧
      parse_line "ls -l " = ["ls", "-l", ""] ∧ parse_line " a\tb" = ["a", "b"] :=
  ⟨by decide, parse_line_words "ls -l " (by decide), parse_line_words " a\tb" (by decide)⟩

/-- C17: for every token sequence that contains no redirection operator token and in which
every pipe-separated segment is non-empty, `construct_command` returns a tree whose leaves'
argument sequences, concatenated left to right with one `|` between consecutive leaves, are
the original sequence; the tree has one leaf more than the sequence has `|` tokens. -/
theorem construct_command_roundtrip (fresh : Nat → simple_command) (off : Nat)
    (tokens : List String) (hseg : segments_nonempty tokens)
    (hred : ∀ t ∈ tokens, is_redirection t = false) :
    ∃ cmd, construct_command fresh off tokens = some cmd ∧
      ["|"].intercalate ((leaves cmd).map (fun scmd => scmd.tokens)) = tokens ∧
      (leaves cmd).length = tokens.count "|" + 1 :=
  construct_command_flatten fresh tokens.length tokens (Nat.le_refl _) off hseg hred

/-- Witness for C17: the tokens of `a | b -x | c`. -/
theorem construct_command_roundtrip_witness :
    (segments_nonempty ["a", "|", "b", "-x", "|", "c"] ∧
      ∀ t ∈ ["a", "|", "b", "-x", "|", "c"], is_redirection t = false) ∧
      ∃ cmd, construct_command (fun _ => zeroed) 0 ["a", "|", "b", "-x", "|", "c"] =
          some cmd ∧
        ["|"].intercalate ((leaves cmd).map (fun scmd => scmd.tokens)) =
          ["a", "|", "b", "-x", "|", "c"] ∧
        (leaves cmd).length = ["a", "|", "b", "-x", "|", "c"].count "|" + 1 :=
  ⟨by decide,
    construct_command_roundtrip (fun _ => zeroed) 0 ["a", "|", "b", "-x", "|", "c"]
      (by decide) (by decide)⟩

/-- C18: the leaf built from the tokens of `ls`, which hold no redirection operator, and the
builtin leaf built from `cd x` carry the three targets that `malloc` left in the record:
`construct_command` writes only `builtin` and `tokens`, so a record that held a value in
`in` yields a leaf whose input target is present. -/
theorem construct_command_uninitialised_targets (fresh : Nat → simple_command) :
    construct_command fresh 0 ["ls"] =
        some (command.simple { fresh 0 with builtin := 0, tokens := ["ls"] }) ∧
      construct_command fresh 0 ["cd", "x"] =
        some (command.simple { fresh 0 with builtin := 1, tokens := ["cd", "x"] }) ∧
      construct_command (fun _ => { zeroed with in_ := some "junk" }) 0 ["ls"] =
        some (command.simple { zeroed with in_ := some "junk", tokens := ["ls"] }) := by
  exact ⟨rfl, rfl, rfl⟩

end ShellLite
